import Mathlib

/-!
A verification development for the Res-Scan repository.

The pipeline under study extracts static-resource references from crawled
HTML, canonicalizes their URLs, classifies them, deduplicates them, and
persists them.  The definitions below are shallow embeddings of the
repository's Python functions (`app/extractor.py`, `app/scanner.py`,
`app/db.py`, `app/jobs.py`) together with the parts of the CPython
standard library (`urllib.parse`, `hashlib.sha256`) that those functions
call.  Strings are modelled as `List Char` where induction is needed, with
`String` wrappers at the boundaries.  The model covers the full character
range; where CPython applies Unicode-table-driven behaviour beyond ASCII
(NFKC normalization inside an internal netloc check, Unicode lowercasing,
non-ASCII decimal digits in `int`), the model uses the identity / ASCII
behaviour, which agrees with CPython on all ASCII inputs; this is noted at
each definition it concerns.
-/

set_option maxRecDepth 10000

namespace ResScan

/-! ## Python string primitives -/

/-- The characters stripped by Python `str.strip()` / `str.lstrip()` with no
argument: exactly the code points for which `str.isspace()` holds
(ASCII whitespace, the C1 controls 0x1c-0x1f, 0x85, and the Unicode space
separators). -/
def pyIsSpace (c : Char) : Bool :=
  let n := c.val
  (9 ≤ n && n ≤ 13) || n = 32 || (28 ≤ n && n ≤ 31) || n = 0x85 || n = 0xa0 ||
  n = 0x1680 || (0x2000 ≤ n && n ≤ 0x200a) ||
  n = 0x2028 || n = 0x2029 || n = 0x202f || n = 0x205f || n = 0x3000

/-- Python `s.strip()` (no argument): remove leading and trailing whitespace. -/
def pyStrip (s : List Char) : List Char :=
  ((s.dropWhile pyIsSpace).reverse.dropWhile pyIsSpace).reverse

/-- ASCII decimal digit test (`0`-`9`), as used by CPython's `int(s, 10)`
grammar.  CPython also accepts non-ASCII Unicode decimal digits; the model
restricts to ASCII, on which the two agree. -/
def isDigitChar (c : Char) : Bool := '0' ≤ c && c ≤ '9'

def digitVal (c : Char) : Nat := c.toNat - '0'.toNat

/-- Numeric value of a string of decimal digits. -/
def digitsValue (s : List Char) : Nat :=
  s.foldl (fun acc c => acc * 10 + digitVal c) 0

/-- Fuel-driven digit expansion (the fuel only bounds the recursion depth;
one unit per division by ten always suffices from `n + 1`). -/
def natReprAux : Nat → Nat → List Char
  | 0, _ => []
  | fuel + 1, n =>
    if n < 10 then [Char.ofNat ('0'.toNat + n)]
    else natReprAux fuel (n / 10) ++ [Char.ofNat ('0'.toNat + n % 10)]

/-- Decimal representation of a natural number, as produced by Python
`str(n)` / f-string interpolation of a nonnegative `int`. -/
def natRepr (n : Nat) : List Char :=
  natReprAux (n + 1) n

/-! ## One-shot splitting helpers (Python `partition` / `split(sep, 1)`) -/

/-- Text before the first occurrence of `c` (the whole list if absent). -/
def beforeFirst (c : Char) (s : List Char) : List Char :=
  s.takeWhile (fun x => x ≠ c)

/-- Text after the first occurrence of `c` (empty if absent) — the third
component of Python `s.partition(c)`, and the second component of
`s.split(c, 1)` when `c` is present. -/
def afterFirst (c : Char) (s : List Char) : List Char :=
  (s.dropWhile (fun x => x ≠ c)).tail

/-- Text after the last occurrence of `c`, the whole list if absent — the
third component of Python `s.rpartition(c)` extended to the missing case the
way `SplitResult._hostinfo` uses it (`netloc.rpartition(chr(64))[2]` is the
whole netloc when there is no at-sign). -/
def afterLast (c : Char) (s : List Char) : List Char :=
  (s.reverse.takeWhile (fun x => x ≠ c)).reverse

/-! ## CPython `urllib.parse.urlsplit`

Model of `urlsplit` as shipped with current CPython: strip leading
C0-control/space characters, delete tab/CR/LF everywhere, split off a
scheme, a netloc (with the bracketed-host validity checks), a fragment and
a query.  `ValueError` is modelled as `Except.error`. -/

/-- Leading-character strip plus removal of the unsafe bytes tab, CR and LF,
applied by `urlsplit` before any parsing. -/
def preprocess (s : List Char) : List Char :=
  (s.dropWhile (fun c => c.val ≤ 0x20)).filter (fun c => c ≠ '\t' && c ≠ '\r' && c ≠ '\n')

/-- The cleaning `urlsplit` applies to its `scheme` default argument:
strip C0-control/space on both sides, remove tab/CR/LF. -/
def cleanDefaultScheme (s : List Char) : List Char :=
  (((s.dropWhile (fun c => c.val ≤ 0x20)).reverse.dropWhile
      (fun c => c.val ≤ 0x20)).reverse).filter (fun c => c ≠ '\t' && c ≠ '\r' && c ≠ '\n')

/-- Characters allowed in a URL scheme after the first (letters, digits,
plus, minus, dot). -/
def isSchemeChar (c : Char) : Bool :=
  c.isAlpha || isDigitChar c || c = '+' || c = '-' || c = '.'

/-- Scheme extraction: if the text before the first colon is nonempty,
starts with an ASCII letter and consists of scheme characters, it becomes
the (lowercased) scheme; otherwise the default scheme is kept and the URL is
left whole. -/
def schemeSplit (dflt : List Char) (s : List Char) : List Char × List Char :=
  if s.any (fun c => c = ':') then
    match beforeFirst ':' s with
    | [] => (dflt, s)
    | c :: cs =>
      if c.isAlpha && (c :: cs).all isSchemeChar then
        ((c :: cs).map Char.toLower, afterFirst ':' s)
      else (dflt, s)
  else (dflt, s)

/-- A character ending the netloc scan (`_splitnetloc` looks for the
earliest of slash, question mark, hash). -/
def isNetlocEnd (c : Char) : Bool := c = '/' || c = '?' || c = '#'

/-- Netloc extraction: only when the remainder starts with two slashes; the
delimiter stays with the remainder. -/
def netlocSplit (s : List Char) : List Char × List Char :=
  match s with
  | '/' :: '/' :: rest =>
    (rest.takeWhile (fun c => ¬ isNetlocEnd c), rest.dropWhile (fun c => ¬ isNetlocEnd c))
  | _ => ([], s)

/-! ### Bracketed-host validation (`ipaddress` via `_check_bracketed_host`) -/

def isHexDigitChar (c : Char) : Bool :=
  isDigitChar c || ('a' ≤ c && c ≤ 'f') || ('A' ≤ c && c ≤ 'F')

/-- Split on every occurrence of `c`, keeping empty pieces — Python
`s.split(c)` with no maxsplit. -/
def splitAll (c : Char) : List Char → List (List Char)
  | [] => [[]]
  | x :: rest =>
    if x = c then [] :: splitAll c rest
    else
      match splitAll c rest with
      | [] => [[x]]
      | y :: ys => (x :: y) :: ys

/-- One dotted-quad octet per `ipaddress.IPv4Address`: 1-3 ASCII digits, no
leading zero, value at most 255. -/
def isIPv4Octet (s : List Char) : Bool :=
  ¬ s.isEmpty && s.all isDigitChar && s.length ≤ 3 &&
  ¬ (s.length > 1 && s.headD ' ' = '0') && digitsValue s ≤ 255

/-- `ipaddress.IPv4Address` string validity: exactly four valid octets. -/
def isIPv4 (s : List Char) : Bool :=
  let parts := splitAll '.' s
  parts.length = 4 && parts.all isIPv4Octet

/-- One IPv6 hextet: one to four hex digits. -/
def isHextet (s : List Char) : Bool :=
  ¬ s.isEmpty && s.length ≤ 4 && s.all isHexDigitChar

/-- Validity of the colon-separated hextet list of an IPv6 address,
following `ipaddress.IPv6Address._ip_int_from_string`: at most one run of
`::` (an inner empty part), a leading/trailing single colon only as part of
`::`, eight hextets in total with at least one elided by `::` when present. -/
def validIPv6Hextets (parts : List (List Char)) : Bool :=
  let n := parts.length
  if n > 9 then false
  else
    match (List.range n).filter
        (fun i => decide (1 ≤ i) && decide (i ≤ n - 2) && (parts.getD i [' ']).isEmpty) with
    | [] =>
      n = 8 && ¬ (parts.getD 0 [' ']).isEmpty && ¬ (parts.getD (n - 1) [' ']).isEmpty &&
      parts.all isHextet
    | [i] =>
      let headEmpty := (parts.getD 0 [' ']).isEmpty
      let lastEmpty := (parts.getD (n - 1) [' ']).isEmpty
      let hi := if headEmpty then 0 else i
      let lo := if lastEmpty then 0 else n - i - 1
      (¬ headEmpty || i = 1) && (¬ lastEmpty || i = n - 2) &&
      hi + lo ≤ 7 &&
      (parts.take hi).all isHextet && (parts.drop (n - lo)).all isHextet
    | _ => false

/-- `ipaddress.IPv6Address` string validity without the scope id: split on
colons; fewer than three parts is invalid; an embedded dotted quad may
replace the last part (contributing two hextets). -/
def isIPv6Core (s : List Char) : Bool :=
  let parts0 := splitAll ':' s
  if parts0.length < 3 then false
  else
    let lastP := parts0.getLastD []
    if lastP.any (fun c => c = '.') then
      isIPv4 lastP && validIPv6Hextets (parts0.dropLast ++ [['0'], ['0']])
    else validIPv6Hextets parts0

/-- `ipaddress.IPv6Address` validity including an optional percent-delimited
scope id (which must be nonempty and percent-free). -/
def isIPv6 (s : List Char) : Bool :=
  if s.any (fun c => c = '%') then
    let scope := afterFirst '%' s
    ¬ scope.isEmpty && ¬ scope.any (fun c => c = '%') && isIPv6Core (beforeFirst '%' s)
  else isIPv6Core s

/-- `urllib.parse._check_bracketed_host`: a lowercase-v-prefixed IPvFuture
literal (`v`, one or more hex digits, a dot, at least one further
non-newline character), or an IPv6 address; a dotted-quad IPv4 address in
brackets is explicitly rejected. -/
def checkBracketedHost (h : List Char) : Bool :=
  match h with
  | 'v' :: rest =>
    let hexRun := rest.takeWhile isHexDigitChar
    let after := rest.drop hexRun.length
    ¬ hexRun.isEmpty &&
      (match after with
       | '.' :: tail => ¬ tail.isEmpty && tail.all (fun c => c ≠ '\n')
       | _ => false)
  | _ => ¬ isIPv4 h && isIPv6 h

/-- The netloc-level bracket conditions that make `urlsplit` raise
`ValueError`: an unmatched square bracket, or matched brackets whose
bracketed text fails `_check_bracketed_host`. -/
def bracketErr (netloc : List Char) : Bool :=
  let hasO := netloc.any (fun c => c = '[')
  let hasC := netloc.any (fun c => c = ']')
  (hasO != hasC) ||
    (hasO && hasC && ¬ checkBracketedHost (beforeFirst ']' (afterFirst '[' netloc)))

/-- The result record of `urlsplit` (fragment handling enabled, as at every
call site in the repository). -/
structure SplitParts where
  scheme : List Char
  netloc : List Char
  path : List Char
  query : List Char
  fragment : List Char
deriving DecidableEq, Repr

/-- `urllib.parse.urlsplit(url, scheme=dflt)`.  The `_checknetloc` call
returns immediately for every all-ASCII netloc; beyond ASCII it rejects
only characters whose NFKC normalization introduces a URL delimiter, and
NFKC is modelled as the identity, so the check never fires in the model. -/
def urlsplitM (dflt : List Char) (url : List Char) : Except Unit SplitParts :=
  let u := preprocess url
  let d := cleanDefaultScheme dflt
  let (scheme, rest) := schemeSplit d u
  let (netloc, rest2) := netlocSplit rest
  if bracketErr netloc then .error ()
  else
    .ok ⟨scheme, netloc, beforeFirst '?' (beforeFirst '#' rest2),
         afterFirst '?' (beforeFirst '#' rest2), afterFirst '#' rest2⟩

/-! ### `SplitResult.hostname` / `SplitResult.port` (`_hostinfo`) -/

/-- The part of the netloc after the last at-sign. -/
def hostinfoOf (netloc : List Char) : List Char := afterLast '@' netloc

/-- The raw (uncased) hostname of a netloc per `SplitResult._hostinfo`:
inside the brackets when an opening bracket is present, otherwise the text
before the first colon. -/
def rawHostOf (netloc : List Char) : List Char :=
  let hi := hostinfoOf netloc
  if hi.any (fun c => c = '[') then beforeFirst ']' (afterFirst '[' hi)
  else beforeFirst ':' hi

/-- The raw port text of a netloc per `SplitResult._hostinfo` (`none` when
empty or absent). -/
def rawPortStrOf (netloc : List Char) : Option (List Char) :=
  let hi := hostinfoOf netloc
  let p :=
    if hi.any (fun c => c = '[') then afterFirst ':' (afterFirst ']' (afterFirst '[' hi))
    else afterFirst ':' hi
  if p.isEmpty then none else some p

/-! ## `app/extractor.py`: `normalize_identity_url` -/

def httpL : List Char := ['h', 't', 't', 'p']

def httpsL : List Char := ['h', 't', 't', 'p', 's']

/-- The scheme lists of `urllib.parse` used by `urlunsplit` and `urljoin`
(`uses_netloc`, `uses_relative`, `uses_params` as in CPython 3.11). -/
def usesNetloc : List String :=
  ["", "ftp", "http", "gopher", "nntp", "telnet",
   "imap", "wais", "file", "mms", "https", "shttp",
   "snews", "prospero", "rtsp", "rtsps", "rtspu", "rsync",
   "svn", "svn+ssh", "sftp", "nfs", "git", "git+ssh",
   "ws", "wss"]

def usesRelative : List String :=
  ["", "ftp", "http", "gopher", "nntp", "imap",
   "wais", "file", "https", "shttp", "mms",
   "prospero", "rtsp", "rtsps", "rtspu", "sftp",
   "svn", "svn+ssh", "ws", "wss"]

def usesParams : List String :=
  ["", "ftp", "hdl", "prospero", "http", "imap",
   "https", "shttp", "rtsp", "rtsps", "rtspu", "sip",
   "sips", "mms", "sftp", "tel"]

/-- The canonical identity components `normalize_identity_url` extracts
before reassembly: lowercased scheme already in {http, https}, lowercased
nonempty host, validated nonzero port (if any), path and query. -/
structure IdParts where
  scheme : List Char
  host : List Char
  port : Option Nat
  path : List Char
  query : List Char
deriving DecidableEq, Repr

/-- The accepting half of `normalize_identity_url` (`app/extractor.py`):
split the URL (a `ValueError` → rejection), require an http(s) scheme,
lowercase the host and require it nonempty (the `hostname` property
lowercases everything before a percent sign and the function then
lowercases the whole result — the composition is one full ASCII-lowercase
map), validate the port text (`port.isdigit() and port.isascii()`, then the
0-65535 range; any failure → `ValueError` → rejection), and drop a zero
port the way the falsiness test `if port:` does. -/
def idParts (url : List Char) : Option IdParts :=
  match urlsplitM [] url with
  | .error _ => none
  | .ok p =>
    if p.scheme = httpL ∨ p.scheme = httpsL then
      let host := (rawHostOf p.netloc).map Char.toLower
      if host.isEmpty then none
      else
        match rawPortStrOf p.netloc with
        | none => some ⟨p.scheme, host, none, p.path, p.query⟩
        | some ps =>
          if ¬ ps.isEmpty ∧ ps.all isDigitChar then
            let v := digitsValue ps
            if v ≤ 65535 then
              some ⟨p.scheme, host, if v = 0 then none else some v, p.path, p.query⟩
            else none
          else none
    else none

/-- `urllib.parse.urlunsplit` (CPython 3.11): the double slash is emitted
when the netloc is nonempty, or when the scheme is a netloc-using one and
the path does not already begin with a double slash. -/
def urlunsplitM (scheme netloc path query fragment : List Char) : List Char :=
  let url :=
    if ¬ netloc.isEmpty ∨
        (¬ scheme.isEmpty ∧ usesNetloc.contains (String.mk scheme) ∧ path.take 2 ≠ ['/', '/']) then
      let url2 := if ¬ path.isEmpty ∧ path.take 1 ≠ ['/'] then '/' :: path else path
      '/' :: '/' :: (netloc ++ url2)
    else path
  let url := if ¬ scheme.isEmpty then scheme ++ ':' :: url else url
  let url := if ¬ query.isEmpty then url ++ '?' :: query else url
  if ¬ fragment.isEmpty then url ++ '#' :: fragment else url

/-- Reassembly step of `normalize_identity_url`: host with the kept port as
netloc, empty path defaulted to a slash, query kept, fragment dropped,
scheme lowercased (again). -/
def renderIdParts (np : IdParts) : List Char :=
  let netloc :=
    match np.port with
    | none => np.host
    | some n => np.host ++ ':' :: natRepr n
  let path := if np.path.isEmpty then ['/'] else np.path
  urlunsplitM (np.scheme.map Char.toLower) netloc path np.query []

/-- The final guard of `normalize_identity_url`: the reassembled URL must
start with `http://` or `https://`. -/
def startsHttpOk (s : List Char) : Bool :=
  (httpL ++ [':', '/', '/']).isPrefixOf s || (httpsL ++ [':', '/', '/']).isPrefixOf s

/-- `normalize_identity_url` over character lists. -/
def normCore (url : List Char) : Option (List Char) :=
  match idParts url with
  | none => none
  | some np =>
    let r := renderIdParts np
    if startsHttpOk r then some r else none

/-- `normalize_identity_url` (`app/extractor.py`): canonical identity URL,
or `none` for a rejected candidate. -/
def normalizeIdentityUrl (url : String) : Option String :=
  (normCore url.toList).map (fun l => String.mk l)

/-! ## CPython `urllib.parse.urlparse` / `urlunparse` / `urljoin`

`extract_asset_instances` resolves every candidate against the page URL
with `urljoin` before normalizing; `urljoin` is built on `urlparse`, which
adds a params component split off the path. -/

/-- `urllib.parse._splitparams`: split the params off the last path segment
(after the last slash) or, with no slash, off the first semicolon. -/
def splitparamsM (url : List Char) : List Char × List Char :=
  if url.any (fun c => c = '/') then
    let lastSeg := afterLast '/' url
    if lastSeg.any (fun c => c = ';') then
      (url.take (url.length - lastSeg.length) ++ beforeFirst ';' lastSeg,
       afterFirst ';' lastSeg)
    else (url, [])
  else
    if url.any (fun c => c = ';') then (beforeFirst ';' url, afterFirst ';' url)
    else (url, [])

/-- The result record of `urlparse`. -/
structure ParseParts where
  scheme : List Char
  netloc : List Char
  path : List Char
  params : List Char
  query : List Char
  fragment : List Char
deriving DecidableEq, Repr

/-- `urllib.parse.urlparse(url, scheme=dflt)`. -/
def urlparseM (dflt : List Char) (url : List Char) : Except Unit ParseParts :=
  match urlsplitM dflt url with
  | .error e => .error e
  | .ok p =>
    if usesParams.contains (String.mk p.scheme) ∧ p.path.any (fun c => c = ';') then
      let pr := splitparamsM p.path
      .ok ⟨p.scheme, p.netloc, pr.1, pr.2, p.query, p.fragment⟩
    else .ok ⟨p.scheme, p.netloc, p.path, [], p.query, p.fragment⟩

/-- `urllib.parse.urlunparse`. -/
def urlunparseM (pp : ParseParts) : List Char :=
  let url := if ¬ pp.params.isEmpty then pp.path ++ ';' :: pp.params else pp.path
  urlunsplitM pp.scheme pp.netloc url pp.query pp.fragment

/-- One step of `urljoin`'s dot-segment resolution loop: `..` pops (a pop
from an empty stack is ignored), `.` is dropped, anything else is pushed. -/
def resolveSegs (acc : List (List Char)) : List (List Char) → List (List Char)
  | [] => acc
  | seg :: rest =>
    if seg = ['.', '.'] then resolveSegs acc.dropLast rest
    else if seg = ['.'] then resolveSegs acc rest
    else resolveSegs (acc ++ [seg]) rest

/-- `segments[1:-1] = filter(None, segments[1:-1])`: drop empty segments,
keeping the first and last elements regardless. -/
def filterMiddle (l : List (List Char)) : List (List Char) :=
  match l with
  | [] => []
  | [x] => [x]
  | x :: rest =>
    x :: (rest.dropLast.filter (fun s => ¬ s.isEmpty) ++ [rest.getLastD []])

/-- `urllib.parse.urljoin` (CPython 3.11).  Errors raised by the underlying
`urlparse` (invalid bracketed hosts and the like) propagate. -/
def urljoinM (base url : List Char) : Except Unit (List Char) :=
  if base.isEmpty then .ok url
  else if url.isEmpty then .ok base
  else
    match urlparseM [] base with
    | .error e => .error e
    | .ok b =>
      match urlparseM b.scheme url with
      | .error e => .error e
      | .ok r =>
        if r.scheme ≠ b.scheme ∨ ¬ usesRelative.contains (String.mk r.scheme) then .ok url
        else
          let inNetloc := usesNetloc.contains (String.mk r.scheme)
          if inNetloc ∧ ¬ r.netloc.isEmpty then .ok (urlunparseM r)
          else
            let netloc := if inNetloc then b.netloc else r.netloc
            if r.path.isEmpty ∧ r.params.isEmpty then
              .ok (urlunparseM ⟨r.scheme, netloc, b.path, b.params,
                    (if r.query.isEmpty then b.query else r.query), r.fragment⟩)
            else
              let baseParts0 := splitAll '/' b.path
              let baseParts :=
                if baseParts0.getLastD [] ≠ ([] : List Char) then baseParts0.dropLast
                else baseParts0
              let segments :=
                if r.path.take 1 = ['/'] then splitAll '/' r.path
                else filterMiddle (baseParts ++ splitAll '/' r.path)
              let resolved := resolveSegs [] segments
              let resolved :=
                if segments.getLastD [] = ['.'] ∨ segments.getLastD [] = ['.', '.'] then
                  resolved ++ [[]]
                else resolved
              let joined := List.intercalate ['/'] resolved
              .ok (urlunparseM ⟨r.scheme, netloc,
                    (if joined.isEmpty then ['/'] else joined),
                    r.params, r.query, r.fragment⟩)

/-! ## `app/extractor.py`: attribute values and `parse_attribute_urls` -/

/-- A BeautifulSoup attribute value: a string or a (possibly nested) list;
`bs4` itself only produces strings and flat lists of strings, but
`parse_attribute_urls` recurses through any nesting, so the model allows
it. -/
inductive RawValue where
  | str (s : String)
  | lst (items : List RawValue)

/-- The string case of `parse_attribute_urls`: a srcset attribute is split
on commas, each entry stripped and skipped when empty, the part before the
first space taken and stripped again, and yielded when nonempty; any other
attribute yields its stripped value when nonempty. -/
def parseStrAttr (attrName : String) (raw : String) : List String :=
  if attrName = "srcset" then
    (splitAll ',' raw.toList).filterMap (fun entry =>
      let e := pyStrip entry
      if e.isEmpty then none
      else
        let urlPart := pyStrip (e.takeWhile (fun c => c ≠ ' '))
        if urlPart.isEmpty then none else some (String.mk urlPart))
  else
    let c := pyStrip raw.toList
    if c.isEmpty then [] else [String.mk c]

mutual

/-- `parse_attribute_urls` (`app/extractor.py`): list values are flattened
recursively; string values go through `parseStrAttr`.  (A value that is
neither a string nor a list yields nothing in Python; such values do not
occur in the modelled value space.) -/
def parseAttributeUrls (attrName : String) : RawValue → List String
  | .str s => parseStrAttr attrName s
  | .lst items => parseAttrListVals attrName items

/-- Flattening of a list-valued attribute, in order. -/
def parseAttrListVals (attrName : String) : List RawValue → List String
  | [] => []
  | v :: rest => parseAttributeUrls attrName v ++ parseAttrListVals attrName rest

end

/-! ## `app/config.py` and classification tables -/

/-- The fixed resource-type enumeration (`ResourceType` in
`app/config.py`). -/
inductive ResourceType where
  | css | js | images | fonts | video | docs
deriving DecidableEq, Repr

/-- `RESOURCE_TYPES` (`app/config.py`), in source order. -/
def RESOURCE_TYPES : List ResourceType :=
  [.css, .js, .images, .fonts, .video, .docs]

/-- `EXTENSIONS` (`app/extractor.py`), per-category suffix table in source
(dict-insertion) order. -/
def EXTENSIONS : List (ResourceType × List String) :=
  [(.css, [".css"]),
   (.js, [".js", ".mjs"]),
   (.images, [".jpg", ".jpeg", ".png", ".gif", ".webp", ".svg", ".ico", ".bmp", ".avif"]),
   (.fonts, [".woff", ".woff2", ".ttf", ".otf", ".eot"]),
   (.video, [".mp4", ".webm", ".m3u8", ".mpd", ".mov", ".avi", ".mp3", ".wav"]),
   (.docs, [".pdf", ".doc", ".docx", ".xls", ".xlsx", ".ppt", ".pptx", ".txt", ".csv"])]

/-- `TAG_ATTRS` (`app/extractor.py`): the URL-bearing attributes per tag, in
source order. -/
def TAG_ATTRS : List (String × List String) :=
  [("script", ["src"]),
   ("link", ["href"]),
   ("img", ["src", "srcset"]),
   ("source", ["src", "srcset"]),
   ("video", ["src", "poster"]),
   ("audio", ["src"]),
   ("track", ["src"]),
   ("iframe", ["src"]),
   ("embed", ["src"]),
   ("object", ["data"]),
   ("input", ["src"]),
   ("a", ["href"]),
   ("use", ["href", "xlink:href"])]

/-- Python `str.lower()` modelled as the per-character ASCII lowercase map
(CPython lowercases by Unicode table; the two agree on ASCII). -/
def pyLowerStr (s : String) : String :=
  String.mk (s.toList.map Char.toLower)

/-- Python `str(item)` for the item of a `rel` list: identity on strings; a
nested list would stringify to its repr, modelled by a bracket placeholder
(such values never match any keyword and never occur in bs4 output). -/
def rawValueStr : RawValue → String
  | .str s => s
  | .lst _ => "[list]"

/-- `node.attrs.get("rel", [])` wrapped to a list the way
`classify_resource_type` does: a missing value gives the empty list, a
string is wrapped into a singleton, a list is taken item-wise. -/
def relValuesOf : Option RawValue → List String
  | none => []
  | some (.str s) => [s]
  | some (.lst items) => items.map rawValueStr

/-- `str(node.attrs.get("as", "")).lower()`. -/
def asValueOf (attrs : List (String × RawValue)) : String :=
  (match attrs.lookup "as" with
   | none => ""
   | some v => pyLowerStr (rawValueStr v))

/-- The fallback of `classify_resource_type`:
`"docs" if "docs" in RESOURCE_TYPES else "images"`. -/
def classifyFallback : ResourceType :=
  if RESOURCE_TYPES.contains .docs then .docs else .images

/-- `classify_resource_type` (`app/extractor.py`).  The unguarded
`urlsplit(url)` inside it can raise `ValueError`, which the model
propagates as `Except.error`.  Python's Unicode `str.lower()` is modelled
by the ASCII `Char.toLower` map (they agree on ASCII). -/
def classifyResourceType (url : String) (tag : String) (attr : String)
    (attrs : List (String × RawValue)) : Except Unit ResourceType :=
  match urlsplitM [] url.toList with
  | .error e => .error e
  | .ok p =>
    let lowered := p.path.map Char.toLower
    match EXTENSIONS.find? (fun rt => rt.2.any (fun suf => suf.toList.isSuffixOf lowered)) with
    | some rt => .ok rt.1
    | none =>
      if tag = "script" ∧ attr = "src" then .ok .js
      else if tag = "img" then .ok .images
      else if tag = "video" then .ok .video
      else if tag = "audio" then .ok .video
      else if tag = "track" then .ok .video
      else if tag = "link" ∧ attr = "href" then
        let relValues := (relValuesOf (attrs.lookup "rel")).map pyLowerStr
        if relValues.contains "stylesheet" then .ok .css
        else
          let preloadHit := relValues.any
            (fun r => r = "preload" || r = "prefetch" || r = "modulepreload")
          let asv := asValueOf attrs
          if preloadHit ∧ asv = "script" then .ok .js
          else if preloadHit ∧ asv = "style" then .ok .css
          else if preloadHit ∧ asv = "font" then .ok .fonts
          else if preloadHit ∧ asv = "image" then .ok .images
          else if relValues.contains "icon" then .ok .images
          else .ok classifyFallback
      else .ok classifyFallback

/-! ## The parsed DOM and `build_dom_path`

BeautifulSoup's parsed document is modelled as a forest of element nodes
under the `[document]` root (text and comment nodes carry no URL-bearing
attributes and are invisible to the same-name sibling rank, so they are
elided).  `build_dom_path` renders, for each node on the root chain, the
tag name with its 1-based rank among preceding same-named element
siblings. -/

inductive HTree where
  | node (name : String) (attrs : List (String × RawValue)) (children : List HTree)

def HTree.name : HTree → String
  | .node n _ _ => n

def HTree.attrs : HTree → List (String × RawValue)
  | .node _ a _ => a

def HTree.children : HTree → List HTree
  | .node _ _ c => c

/-- One path segment as `build_dom_path` renders it. -/
def segFor (name : String) (rank : Nat) : List Char :=
  name.toList ++ '[' :: (natRepr rank ++ [']'])

/-- The string `build_dom_path` returns for the segment list of the chain
from the document root to a node (a leading slash, segments joined with
slashes; the `[document]` root contributes the first segment since
`BeautifulSoup` is itself a `Tag` with name `[document]` and rank 1). -/
def renderDomPath (segs : List (List Char)) : List Char :=
  '/' :: List.intercalate ['/'] (segFor "[document]" 1 :: segs)

mutual

/-- Descend into one node's children for the document-order enumeration. -/
def enumTreeM (pos : List Nat) (segs : List (List Char)) :
    HTree → List (List Nat × List (List Char) × HTree)
  | .node _ _ cs => enumForestAux pos segs 0 (fun _ => 0) cs

/-- The document-order (`soup.find_all(True)`) enumeration of a forest:
each entry carries the node's tree position (child-index path), the
segment list of its root chain, and the node.  `i` is the child index and
`cnt` the per-name count of preceding element siblings at the current
level. -/
def enumForestAux (pos : List Nat) (segs : List (List Char)) (i : Nat)
    (cnt : String → Nat) : List HTree → List (List Nat × List (List Char) × HTree)
  | [] => []
  | t :: rest =>
    let nm := t.name
    let r := cnt nm + 1
    let segsC := segs ++ [segFor nm r]
    let posC := pos ++ [i]
    (posC, segsC, t) ::
      (enumTreeM posC segsC t ++
       enumForestAux pos segs (i + 1) (fun s => if s = nm then r else cnt s) rest)

end

/-- Document-order enumeration of a page (the children of the document
root). -/
def enumPage (children : List HTree) : List (List Nat × List (List Char) × HTree) :=
  enumForestAux [] [] 0 (fun _ => 0) children

/-- A parsed tag name as produced by an HTML parser: free of the square
brackets and slashes that `build_dom_path` uses as segment delimiters
(lxml tag names are alphanumeric with dashes/colons, so every parsed page
satisfies this). -/
def goodName (s : String) : Bool :=
  s.toList.all (fun c => c ≠ '[' && c ≠ ']' && c ≠ '/')

mutual

/-- Every tag name in the tree is a parser-shaped name. -/
def goodTree : HTree → Bool
  | .node nm _ cs => goodName nm && goodForest cs

/-- Every tag name in the forest is a parser-shaped name. -/
def goodForest : List HTree → Bool
  | [] => true
  | t :: ts => goodTree t && goodForest ts

end

/-! ## SHA-256 (`hashlib.sha256(...).hexdigest()`) -/

/-- UTF-8 encoding of one scalar value (`str.encode("utf-8")` per
character). -/
def utf8Char (c : Char) : List Nat :=
  let n := c.toNat
  if n < 0x80 then [n]
  else if n < 0x800 then
    [0xC0 ||| (n >>> 6), 0x80 ||| (n &&& 0x3F)]
  else if n < 0x10000 then
    [0xE0 ||| (n >>> 12), 0x80 ||| ((n >>> 6) &&& 0x3F), 0x80 ||| (n &&& 0x3F)]
  else
    [0xF0 ||| (n >>> 18), 0x80 ||| ((n >>> 12) &&& 0x3F),
     0x80 ||| ((n >>> 6) &&& 0x3F), 0x80 ||| (n &&& 0x3F)]

def utf8Bytes (s : String) : List Nat :=
  s.toList.flatMap utf8Char

def sha256K : List Nat :=
  [1116352408, 1899447441, 3049323471, 3921009573, 961987163, 1508970993,
   2453635748, 2870763221, 3624381080, 310598401, 607225278, 1426881987,
   1925078388, 2162078206, 2614888103, 3248222580, 3835390401, 4022224774,
   264347078, 604807628, 770255983, 1249150122, 1555081692, 1996064986,
   2554220882, 2821834349, 2952996808, 3210313671, 3336571891, 3584528711,
   113926993, 338241895, 666307205, 773529912, 1294757372, 1396182291,
   1695183700, 1986661051, 2177026350, 2456956037, 2730485921, 2820302411,
   3259730800, 3345764771, 3516065817, 3600352804, 4094571909, 275423344,
   430227734, 506948616, 659060556, 883997877, 958139571, 1322822218,
   1537002063, 1747873779, 1955562222, 2024104815, 2227730452, 2361852424,
   2428436474, 2756734187, 3204031479, 3329325298]

def sha256H0 : List Nat :=
  [1779033703, 3144134277, 1013904242, 2773480762, 1359893119, 2600822924,
   528734635, 1541459225]

def rotr32 (k n : Nat) : Nat :=
  ((n >>> k) ||| (n <<< (32 - k))) &&& 0xFFFFFFFF

/-- Big-endian 8-byte length field of the padding. -/
def be8 (n : Nat) : List Nat :=
  (List.range 8).map (fun i => (n >>> (8 * (7 - i))) &&& 0xFF)

/-- SHA-256 padding: a 0x80 byte, zeros to 56 mod 64, the bit length. -/
def sha256Pad (msg : List Nat) : List Nat :=
  let L := msg.length
  let k := (64 + 56 - ((L + 1) % 64)) % 64
  msg ++ 0x80 :: (List.replicate k 0 ++ be8 (L * 8))

def chunks64Aux : Nat → List Nat → List (List Nat)
  | 0, _ => []
  | k + 1, l => l.take 64 :: chunks64Aux k (l.drop 64)

/-- Split into 64-byte blocks (the padded message length is a multiple of
64, so the block count is its length divided by 64). -/
def chunks64 (l : List Nat) : List (List Nat) :=
  chunks64Aux ((l.length + 63) / 64) l

def beWord (b : List Nat) : Nat :=
  b.foldl (fun a x => a * 256 + x) 0

def blockWords (blk : List Nat) : List Nat :=
  (List.range 16).map (fun i => beWord ((blk.drop (4 * i)).take 4))

def sha256SmallSigma0 (x : Nat) : Nat := rotr32 7 x ^^^ rotr32 18 x ^^^ (x >>> 3)

def sha256SmallSigma1 (x : Nat) : Nat := rotr32 17 x ^^^ rotr32 19 x ^^^ (x >>> 10)

/-- Message-schedule extension from 16 to 64 words. -/
def sha256Schedule (w16 : List Nat) : List Nat :=
  (List.range 48).foldl
    (fun w i =>
      w ++ [(sha256SmallSigma1 (w.getD (i + 14) 0) + w.getD (i + 9) 0 +
             sha256SmallSigma0 (w.getD (i + 1) 0) + w.getD i 0) &&& 0xFFFFFFFF])
    w16

/-- One SHA-256 compression of a 64-byte block into the running state. -/
def sha256Compress (h : List Nat) (blk : List Nat) : List Nat :=
  let w := sha256Schedule (blockWords blk)
  let st0 := (h.getD 0 0, h.getD 1 0, h.getD 2 0, h.getD 3 0,
              h.getD 4 0, h.getD 5 0, h.getD 6 0, h.getD 7 0)
  let stN := (List.range 64).foldl
    (fun st t =>
      let a := st.1; let b := st.2.1; let c := st.2.2.1; let d := st.2.2.2.1
      let e := st.2.2.2.2.1; let f := st.2.2.2.2.2.1
      let g := st.2.2.2.2.2.2.1; let hh := st.2.2.2.2.2.2.2
      let s1 := rotr32 6 e ^^^ rotr32 11 e ^^^ rotr32 25 e
      let ch := (e &&& f) ^^^ ((0xFFFFFFFF ^^^ e) &&& g)
      let t1 := (hh + s1 + ch + sha256K.getD t 0 + w.getD t 0) &&& 0xFFFFFFFF
      let s0 := rotr32 2 a ^^^ rotr32 13 a ^^^ rotr32 22 a
      let maj := (a &&& b) ^^^ (a &&& c) ^^^ (b &&& c)
      let t2 := (s0 + maj) &&& 0xFFFFFFFF
      ((t1 + t2) &&& 0xFFFFFFFF, a, b, c, (d + t1) &&& 0xFFFFFFFF, e, f, g))
    st0
  [(h.getD 0 0 + stN.1) &&& 0xFFFFFFFF,
   (h.getD 1 0 + stN.2.1) &&& 0xFFFFFFFF,
   (h.getD 2 0 + stN.2.2.1) &&& 0xFFFFFFFF,
   (h.getD 3 0 + stN.2.2.2.1) &&& 0xFFFFFFFF,
   (h.getD 4 0 + stN.2.2.2.2.1) &&& 0xFFFFFFFF,
   (h.getD 5 0 + stN.2.2.2.2.2.1) &&& 0xFFFFFFFF,
   (h.getD 6 0 + stN.2.2.2.2.2.2.1) &&& 0xFFFFFFFF,
   (h.getD 7 0 + stN.2.2.2.2.2.2.2) &&& 0xFFFFFFFF]

def hexDigitChar (k : Nat) : Char :=
  if k < 10 then Char.ofNat (48 + k) else Char.ofNat (87 + k)

def hex8 (n : Nat) : List Char :=
  (List.range 8).map (fun i => hexDigitChar ((n >>> (4 * (7 - i))) &&& 0xF))

/-- `hashlib.sha256(bytes).hexdigest()`. -/
def sha256Hex (bytes : List Nat) : String :=
  String.mk (((chunks64 (sha256Pad bytes)).foldl sha256Compress sha256H0).flatMap hex8)

/-! ## `make_instance_key` and `extract_asset_instances` -/

/-- The pipe-joined material of `make_instance_key`. -/
def keyMaterial (site page asset domPath attr : String) (occ : Nat) : String :=
  String.intercalate "|" [site, page, asset, domPath, attr, String.mk (natRepr occ)]

/-- `make_instance_key` (`app/extractor.py`): SHA-256 hex digest of the
UTF-8 bytes of the pipe-joined tuple. -/
def makeInstanceKey (site page asset domPath attr : String) (occ : Nat) : String :=
  sha256Hex (utf8Bytes (keyMaterial site page asset domPath attr occ))

/-- One extracted record (`AssetInstance` in `app/extractor.py`; the
`resource_type` field is always the classifier's result here, its Python
type is `str | None` only because persisted rows may lack it). -/
structure AssetInstance where
  site_url : String
  page_url : String
  asset_url : String
  dom_path : String
  asset_attr : String
  attr_occurrence : Nat
  instance_key : String
  resource_type : ResourceType
deriving DecidableEq, Repr

/-- One candidate event of the extraction loops, in loop order: a node (its
position, rendered DOM path, tag name and attribute set) together with one
attribute name and one raw candidate URL from `parse_attribute_urls`. -/
structure ExtractEvent where
  pos : List Nat
  domPath : List Char
  tag : String
  nodeAttrs : List (String × RawValue)
  attrName : String
  cand : String

/-- The flattened three-level loop of `extract_asset_instances` (nodes in
document order, their registered attributes in table order, candidates in
parse order). -/
def pageEvents (children : List HTree) : List ExtractEvent :=
  (enumPage children).flatMap (fun e =>
    match TAG_ATTRS.lookup e.2.2.name with
    | none => []
    | some attrsL =>
      attrsL.flatMap (fun attrName =>
        match e.2.2.attrs.lookup attrName with
        | none => []
        | some raw =>
          (parseAttributeUrls attrName raw).map (fun cand =>
            ⟨e.1, renderDomPath e.2.1, e.2.2.name, e.2.2.attrs, attrName, cand⟩)))

/-- The filter chain of the inner loop body: join against the page URL
(errors propagate — `urljoin` is outside the normalization try/except),
normalize (`none` → skip), apply include/exclude patterns (modelled as
boolean oracles for the compiled `re` patterns), classify (errors
propagate), apply the resource-type allow-set; a surviving candidate
yields its normalized URL and type. -/
def surviveEvent (pageUrl : String) (selected : Option (List ResourceType))
    (includeP excludeP : Option (String → Bool)) (ev : ExtractEvent) :
    Except Unit (Option (String × ResourceType)) :=
  match urljoinM pageUrl.toList ev.cand.toList with
  | .error e => .error e
  | .ok joined =>
    match normCore joined with
    | none => .ok none
    | some normalized =>
      let ns := String.mk normalized
      if (match includeP with | some p => ! p ns | none => false) then .ok none
      else if (match excludeP with | some p => p ns | none => false) then .ok none
      else
        match classifyResourceType ns ev.tag ev.attrName ev.nodeAttrs with
        | .error e => .error e
        | .ok rt =>
          if (match selected with | some sel => ! sel.contains rt | none => false) then .ok none
          else .ok (some (ns, rt))

/-- The occurrence-counting emission loop of `extract_asset_instances`,
with the per-page `defaultdict(int)` counter keyed by (attribute name,
normalized URL). -/
def processEvents (siteUrl pageUrl : String) (selected : Option (List ResourceType))
    (includeP excludeP : Option (String → Bool))
    (counter : String × String → Nat) :
    List ExtractEvent → Except Unit (List AssetInstance)
  | [] => .ok []
  | ev :: rest =>
    match surviveEvent pageUrl selected includeP excludeP ev with
    | .error e => .error e
    | .ok none => processEvents siteUrl pageUrl selected includeP excludeP counter rest
    | .ok (some (ns, rt)) =>
      let key := (ev.attrName, ns)
      let occ := counter key + 1
      let inst : AssetInstance :=
        ⟨siteUrl, pageUrl, ns, String.mk ev.domPath, ev.attrName, occ,
         makeInstanceKey siteUrl pageUrl ns (String.mk ev.domPath) ev.attrName occ, rt⟩
      match processEvents siteUrl pageUrl selected includeP excludeP
          (fun k => if k = key then occ else counter k) rest with
      | .error e => .error e
      | .ok insts => .ok (inst :: insts)

/-- `extract_asset_instances` (`app/extractor.py`) on a parsed page. -/
def extractAssetInstances (siteUrl pageUrl : String) (children : List HTree)
    (selected : Option (List ResourceType))
    (includeP excludeP : Option (String → Bool)) : Except Unit (List AssetInstance) :=
  processEvents siteUrl pageUrl selected includeP excludeP (fun _ => 0)
    (pageEvents children)

/-! ## `app/scanner.py`: instance rows and `dedupe_instances_by_key` -/

/-- One instance row dictionary as built by `instance_to_row` and consumed
by `dedupe_instances_by_key` and `replace_site_assets` (the probe fields
are merged in later and read with `.get`, hence optional). -/
structure Row where
  site_url : String
  page_url : String
  asset_url : String
  dom_path : String
  asset_attr : String
  attr_occurrence : Nat
  instance_key : String
  resource_type : Option String
  status_code : Option Int
  content_type : Option String
  content_length : Option Int
  discovered_at : String
deriving DecidableEq, Repr

/-- The loop of `dedupe_instances_by_key` with its `seen` set of keys. -/
def dedupeAux (seen : List String) : List Row → List Row
  | [] => []
  | r :: rest =>
    if seen.contains r.instance_key then dedupeAux seen rest
    else r :: dedupeAux (r.instance_key :: seen) rest

/-- `dedupe_instances_by_key` (`app/scanner.py`). -/
def dedupeInstancesByKey (rows : List Row) : List Row :=
  dedupeAux [] rows

/-- Stated from the spec's words: a row is a first occurrence when no row
earlier in arrival order bears its key. -/
def specKeepRow (prev : List Row) (r : Row) : Bool :=
  prev.all (fun q => q.instance_key ≠ r.instance_key)

/-- Stated from the spec's words ("iterate records in arrival order, keep
the first occurrence of each key, drop subsequent duplicates; output
ordering is first-seen order"): walk the rows with the already-seen prefix,
keeping exactly the first occurrences, in order. -/
def specFirstOccurrencesAux (prev : List Row) : List Row → List Row
  | [] => []
  | r :: rest =>
    (if specKeepRow prev r then [r] else []) ++ specFirstOccurrencesAux (prev ++ [r]) rest

/-- The spec's description of whole-scan dedup, for comparison with
`dedupeInstancesByKey`. -/
def specFirstOccurrences (rows : List Row) : List Row :=
  specFirstOccurrencesAux [] rows

/-! ## `app/scanner.py`: `RobotsGate`

The network fetch (`RobotFileParser.read`) and the policy evaluation
(`RobotFileParser.can_fetch`) are external-boundary operations; the model
takes the fetch outcome as a parameter and carries the parsed policy as an
allow/deny oracle that may itself fail. -/

/-- A fetched robots policy: `can_fetch("*", url)` as an oracle that may
raise. -/
structure RobotsPolicy where
  canFetch : String → Except Unit Bool

/-- The state `RobotsGate.__init__` leaves behind: the `enabled` flag and
`_parser` (set to the parsed policy only when enabled and the fetch
succeeded; a fetch failure leaves it `None`; when disabled the constructor
returns before fetching anything). -/
structure RobotsGateState where
  enabled : Bool
  parser : Option RobotsPolicy

/-- `RobotsGate.__init__` as a function of the constructor arguments and
the fetch outcome. -/
def robotsGateInit (enabled : Bool) (fetch : Except Unit RobotsPolicy) : RobotsGateState :=
  if enabled then
    match fetch with
    | .error _ => ⟨true, none⟩
    | .ok p => ⟨true, some p⟩
  else ⟨false, none⟩

/-- `RobotsGate.is_allowed`: disabled or parserless gates allow everything;
an evaluation error also allows. -/
def robotsIsAllowed (g : RobotsGateState) (url : String) : Bool :=
  if ¬ g.enabled then true
  else
    match g.parser with
    | none => true
    | some p =>
      match p.canFetch url with
      | .ok b => b
      | .error _ => true

/-! ## `app/db.py`: schema and `replace_site_assets`

The two tables are modelled as row lists with their primary keys
(`assets.instance_key`, `scan_meta.site_url`) enforced by the insert
operations; `BEGIN`/`commit`/`rollback` become an all-or-nothing `Except`
around the transaction body, with the rollback case returning the
pre-transaction state. -/

/-- One persisted `assets` row. -/
structure AssetRec where
  site_url : String
  page_url : String
  asset_url : String
  dom_path : String
  asset_attr : String
  attr_occurrence : Nat
  instance_key : String
  resource_type : Option String
  status_code : Option Int
  content_type : Option String
  content_length : Option Int
  scan_id : String
  discovered_at : String
deriving DecidableEq, Repr

/-- One `scan_meta` row. -/
structure MetaRec where
  site_url : String
  last_scan_id : String
  last_scanned_at : String
  last_status : String
deriving DecidableEq, Repr

structure DBState where
  assets : List AssetRec
  meta : List MetaRec
deriving DecidableEq, Repr

/-- The column tuple of the `INSERT INTO assets` statement. -/
def rowToAsset (scanId : String) (r : Row) : AssetRec :=
  ⟨r.site_url, r.page_url, r.asset_url, r.dom_path, r.asset_attr,
   r.attr_occurrence, r.instance_key, r.resource_type, r.status_code,
   r.content_type, r.content_length, scanId, r.discovered_at⟩

/-- `executemany` of the insert: each row appended in order; a duplicate
primary key (`instance_key`) raises `IntegrityError`. -/
def insertAssetsAux (scanId : String) (st : List AssetRec) :
    List Row → Except Unit (List AssetRec)
  | [] => .ok st
  | r :: rest =>
    if st.any (fun a => a.instance_key = r.instance_key) then .error ()
    else insertAssetsAux scanId (st ++ [rowToAsset scanId r]) rest

/-- The `INSERT ... ON CONFLICT(site_url) DO UPDATE` upsert of `scan_meta`
(`CURRENT_TIMESTAMP` passed in as `now`). -/
def upsertMeta (meta : List MetaRec) (site scanId now : String) : List MetaRec :=
  if meta.any (fun m => m.site_url = site) then
    meta.map (fun m => if m.site_url = site then ⟨site, scanId, now, "done"⟩ else m)
  else meta ++ [⟨site, scanId, now, "done"⟩]

/-- The transaction body of `replace_site_assets`: delete the site's rows,
insert the new rows, upsert the scan-meta record. -/
def replaceSiteAssetsTxn (db : DBState) (site scanId now : String)
    (rows : List Row) : Except Unit DBState :=
  let afterDelete := db.assets.filter (fun a => a.site_url ≠ site)
  match insertAssetsAux scanId afterDelete rows with
  | .error e => .error e
  | .ok assets2 => .ok ⟨assets2, upsertMeta db.meta site scanId now⟩

/-- `replace_site_assets` (`app/db.py`) as seen by a later reader of the
connection: the committed state on success, the pre-`BEGIN` state after the
`rollback` (the raised error reaches the caller separately). -/
def replaceSiteAssetsCommitted (db : DBState) (site scanId now : String)
    (rows : List Row) : DBState :=
  match replaceSiteAssetsTxn db site scanId now rows with
  | .ok db2 => db2
  | .error _ => db

/-- `SELECT ... FROM assets WHERE site_url = ?` (as in `assets_for_site`),
in row-insertion order. -/
def assetsForSite (db : DBState) (site : String) : List AssetRec :=
  db.assets.filter (fun a => a.site_url = site)

/-- `SELECT ... FROM scan_meta WHERE site_url = ?`. -/
def metaForSite (db : DBState) (site : String) : List MetaRec :=
  db.meta.filter (fun m => m.site_url = site)

/-! ## `app/jobs.py`: `JobState` and the job runner

The summary dictionary attached to a finished job is opaque to the state
machine; the model is polymorphic in it.  `JobManager._run` catches every
`Exception` from `Scanner.run_scan`, so its outcome is a value:
`Except String` with the exception's `str(exc)` as the message. -/

/-- `JobState` (`app/jobs.py`). -/
structure JobState (σ : Type) where
  job_id : String
  status : String
  phase : String
  progress_pct : Int
  message : String
  error : Option String
  started_at : Option String
  finished_at : Option String
  site_url : Option String
  scan_id : Option String
  summary : Option σ
deriving DecidableEq, Repr

/-- The fields of the result dictionary of `Scanner.run_scan` that `_run`
reads (`result.get("site_url")`, `result.get("summary")`). -/
structure RunResultM (σ : Type) where
  site_url : Option String
  summary : Option σ
deriving DecidableEq, Repr

/-- The registry entry `JobManager.start` creates before launching the
thread: status `running`, phase `starting`, empty message, no error, no
summary, the request's base URL as site. -/
def initialJobState (σ : Type) (jobId scanId siteUrl startedAt : String) : JobState σ :=
  ⟨jobId, "running", "starting", 0, "", none, some startedAt, none,
   some siteUrl, some scanId, none⟩

/-- `JobManager._run` after the scan finishes or raises: the `_fail` update
on an exception (status/phase `failed`, the message captured in `error`,
`summary` untouched), the success update otherwise.  The function is total:
no exception escapes the runner. -/
def jobAfterRun (σ : Type) (s : JobState σ) (res : Except String (RunResultM σ))
    (finishedAt : String) : JobState σ :=
  match res with
  | .error msg =>
    { s with status := "failed", phase := "failed", error := some msg,
             message := "Scan failed", finished_at := some finishedAt }
  | .ok r =>
    { s with status := "done", phase := "done", progress_pct := 100,
             message := "Scan completed", finished_at := some finishedAt,
             site_url := r.site_url, summary := r.summary }

instance {ε α : Type} [DecidableEq ε] [DecidableEq α] : DecidableEq (Except ε α) := fun x y =>
  match x, y with
  | .ok a, .ok b =>
    if h : a = b then isTrue (by rw [h]) else isFalse (by intro hc; cases hc; exact h rfl)
  | .error a, .error b =>
    if h : a = b then isTrue (by rw [h]) else isFalse (by intro hc; cases hc; exact h rfl)
  | .ok _, .error _ => isFalse (by intro hc; cases hc)
  | .error _, .ok _ => isFalse (by intro hc; cases hc)

/-! ### Spec-side attribute parsing (for comparison with
`parse_attribute_urls`) -/

/-- Stated from the amended claim's words for a srcset-style value: split
on commas; strip each entry; skip empty entries; for each remaining entry
take the part before the first space character (the space-delimited head),
stripped. -/
def specSrcsetTokens (v : String) : List String :=
  (splitAll ',' v.toList).filterMap (fun entry =>
    let e := pyStrip entry
    if e.isEmpty then none
    else some (String.mk (pyStrip (beforeFirst ' ' e))))

/-- Stated from the claim's words for an ordinary attribute: the trimmed
whole value exactly when that trimmed value is non-empty. -/
def specOrdinaryTokens (v : String) : List String :=
  let c := pyStrip v.toList
  if c.isEmpty then [] else [String.mk c]

/-- Stated from the claim's words (C5), for comparison with
`classify_resource_type`: given the split of the normalized URL, a
file-extension match against the fixed per-category suffix table wins
first and short-circuits; otherwise the tag/attribute heuristics apply
(`script`+`src` → js, `img` → images, `video`/`audio`/`track` → video,
`link`+`href` inspecting `rel`: `stylesheet` → css, the preload family
deferring to the `as` value mapped {script → js, style → css,
font → fonts, image → images}, `icon` → images); otherwise the fallback is
docs. -/
def specClassify (tag attr : String) (attrs : List (String × RawValue))
    (p : SplitParts) : ResourceType :=
  let lowered := p.path.map Char.toLower
  match EXTENSIONS.find? (fun rt => rt.2.any (fun suf => suf.toList.isSuffixOf lowered)) with
  | some e => e.1
  | none =>
    if tag = "script" ∧ attr = "src" then .js
    else if tag = "img" then .images
    else if tag = "video" ∨ tag = "audio" ∨ tag = "track" then .video
    else if tag = "link" ∧ attr = "href" then
      let rels := (relValuesOf (attrs.lookup "rel")).map pyLowerStr
      let preload := rels.any (fun r => r = "preload" || r = "prefetch" || r = "modulepreload")
      let asv := asValueOf attrs
      if rels.contains "stylesheet" then .css
      else if preload ∧ asv = "script" then .js
      else if preload ∧ asv = "style" then .css
      else if preload ∧ asv = "font" then .fonts
      else if preload ∧ asv = "image" then .images
      else if rels.contains "icon" then .images
      else .docs
    else .docs

/-! ### Concrete database fixtures (used by the closed instances below) -/

def c8row (k site : String) : Row :=
  ⟨site, site ++ "/p", site ++ "/a.js", "/[document][1]/html[1]", "src", 1, k,
   some "js", none, none, none, "t0"⟩

def c8db0 : DBState :=
  ⟨[rowToAsset "old" (c8row "kx" "https://s2")], [⟨"https://s2", "old", "t0", "done"⟩]⟩

def c8rows1 : List Row := [c8row "k1" "https://s1", c8row "k2" "https://s1"]

def c8rows2 : List Row := [c8row "k3" "https://s1"]

def c8db1 : DBState := replaceSiteAssetsCommitted c8db0 "https://s1" "id1" "t1" c8rows1

def c8db2 : DBState := replaceSiteAssetsCommitted c8db1 "https://s1" "id2" "t2" c8rows2

/-! ### A concrete page with two identical script references -/

def c2page : List HTree :=
  [HTree.node "html" [] [HTree.node "body" []
    [HTree.node "script" [("src", RawValue.str "/x.js")] [],
     HTree.node "script" [("src", RawValue.str "/x.js")] []]]]

def c2row1 : AssetInstance :=
  ⟨"http://ex.com", "http://ex.com/", "http://ex.com/x.js",
   "/[document][1]/html[1]/body[1]/script[1]", "src", 1,
   "6cb4c4f669e5aab902a2fcce7898999ec352020f2de4c3d713c44555f5992fb7",
   ResourceType.js⟩

def c2row2 : AssetInstance :=
  ⟨"http://ex.com", "http://ex.com/", "http://ex.com/x.js",
   "/[document][1]/html[1]/body[1]/script[2]", "src", 2,
   "f9f6d959e4e8e061a59c67f41207878c06d97e7777b20a460021d9bb6c07c8a5",
   ResourceType.js⟩

/-! # Theorems -/

/-! ## Dedup (`dedupe_instances_by_key`) -/

theorem dedupeAux_eq_specAux (rest : List Row) :
    ∀ (seen : List String) (prev : List Row),
      (∀ k, seen.contains k = true ↔ ∃ q ∈ prev, q.instance_key = k) →
      dedupeAux seen rest = specFirstOccurrencesAux prev rest := by
  induction rest with
  | nil => intro _ _ _; rfl
  | cons r t ih =>
    intro seen prev hinv
    by_cases hmem : seen.contains r.instance_key = true
    · have hkeep : specKeepRow prev r = false := by
        rw [← Bool.not_eq_true]
        simp only [specKeepRow, List.all_eq_true, decide_eq_true_eq]
        intro hall
        obtain ⟨q, hq, hke⟩ := (hinv r.instance_key).mp hmem
        exact hall q hq hke
      simp only [dedupeAux, hmem, if_true, specFirstOccurrencesAux, hkeep,
        Bool.false_eq_true, if_false, List.nil_append]
      refine ih seen (prev ++ [r]) ?_
      intro k
      constructor
      · intro h
        obtain ⟨q, hq, he⟩ := (hinv k).mp h
        exact ⟨q, List.mem_append_left _ hq, he⟩
      · rintro ⟨q, hq, he⟩
        rcases List.mem_append.mp hq with h1 | h2
        · exact (hinv k).mpr ⟨q, h1, he⟩
        · have hqr : q = r := by simpa using h2
          subst hqr
          rw [← he]
          exact hmem
    · have hmemf : seen.contains r.instance_key = false := by simpa using hmem
      have hkeep : specKeepRow prev r = true := by
        simp only [specKeepRow, List.all_eq_true, decide_eq_true_eq]
        intro q hq hke
        exact hmem ((hinv r.instance_key).mpr ⟨q, hq, hke⟩)
      simp only [dedupeAux, hmemf, Bool.false_eq_true, if_false,
        specFirstOccurrencesAux, hkeep, if_true, List.singleton_append,
        List.cons.injEq, true_and]
      refine ih (r.instance_key :: seen) (prev ++ [r]) ?_
      intro k
      constructor
      · intro h
        have h' : k = r.instance_key ∨ k ∈ seen := by simpa [List.contains_cons] using h
        rcases h' with h1 | h2
        · exact ⟨r, List.mem_append_right _ (by simp), h1.symm⟩
        · obtain ⟨q, hq, he⟩ := (hinv k).mp (by simpa using h2)
          exact ⟨q, List.mem_append_left _ hq, he⟩
      · rintro ⟨q, hq, he⟩
        rcases List.mem_append.mp hq with h1 | h2
        · simp only [List.contains_cons, Bool.or_eq_true]
          exact Or.inr ((hinv k).mpr ⟨q, h1, he⟩)
        · have hqr : q = r := by simpa using h2
          subst hqr
          simp [List.contains_cons, ← he]

/-- The keys of a dedup output are pairwise distinct and disjoint from the
seen set. -/
theorem dedupeAux_nodup_and_unseen (rest : List Row) :
    ∀ seen : List String,
      (dedupeAux seen rest).Pairwise (fun a b => a.instance_key ≠ b.instance_key) ∧
      ∀ r ∈ dedupeAux seen rest, seen.contains r.instance_key = false := by
  induction rest with
  | nil => intro _; exact ⟨List.Pairwise.nil, by intro r h; cases h⟩
  | cons r t ih =>
    intro seen
    by_cases hmem : seen.contains r.instance_key = true
    · simpa only [dedupeAux, hmem, if_true] using ih seen
    · have hmemf : seen.contains r.instance_key = false := by simpa using hmem
      obtain ⟨ihp, ihu⟩ := ih (r.instance_key :: seen)
      simp only [dedupeAux, hmemf, Bool.false_eq_true, if_false]
      constructor
      · refine List.Pairwise.cons ?_ ihp
        intro q hq
        have := ihu q hq
        simp only [List.contains_cons, Bool.or_eq_false_iff] at this
        intro hrq
        have : (q.instance_key == r.instance_key) = false := this.1
        simp [hrq] at this
      · intro q hq
        rcases List.mem_cons.mp hq with h1 | h2
        · subst h1; exact hmemf
        · have := ihu q h2
          simp only [List.contains_cons, Bool.or_eq_false_iff] at this
          exact this.2

/-- A list whose keys avoid the seen set and are pairwise distinct passes
through the dedup loop unchanged. -/
theorem dedupeAux_eq_self (l : List Row) :
    ∀ seen : List String,
      (∀ r ∈ l, seen.contains r.instance_key = false) →
      l.Pairwise (fun a b => a.instance_key ≠ b.instance_key) →
      dedupeAux seen l = l := by
  induction l with
  | nil => intro _ _ _; rfl
  | cons r t ih =>
    intro seen hun hp
    have hmemf : seen.contains r.instance_key = false := hun r (by simp)
    simp only [dedupeAux, hmemf, Bool.false_eq_true, if_false, List.cons.injEq, true_and]
    refine ih (r.instance_key :: seen) ?_ (List.Pairwise.sublist (List.sublist_cons_self r t) hp)
    intro q hq
    simp only [List.contains_cons, Bool.or_eq_false_iff]
    refine ⟨?_, hun q (List.mem_cons_of_mem _ hq)⟩
    have : r.instance_key ≠ q.instance_key := (List.pairwise_cons.mp hp).1 q hq
    simpa using fun h => this (by simpa using h.symm)

/-- C3: `dedupe_instances_by_key` keeps exactly the first row bearing each
instance key in arrival order (its output is the spec-side first-occurrence
walk), and it is idempotent. -/
theorem dedupe_first_seen_stable_and_idempotent :
    ∀ rows : List Row,
      dedupeInstancesByKey rows = specFirstOccurrences rows ∧
      dedupeInstancesByKey (dedupeInstancesByKey rows) = dedupeInstancesByKey rows := by
  intro rows
  constructor
  · exact dedupeAux_eq_specAux rows [] [] (by intro k; simp)
  · obtain ⟨hp, hu⟩ := dedupeAux_nodup_and_unseen rows []
    exact dedupeAux_eq_self (dedupeAux [] rows) [] hu hp

/-! ## Robots gate (`RobotsGate`) -/

/-- C7: a disabled robots gate allows every URL no matter what a fetch
would have returned (including a deny-all policy); an enabled gate whose
robots fetch failed allows every URL; and a policy-evaluation error also
yields allow. -/
theorem robots_gate_fail_open :
    (∀ (fetch : Except Unit RobotsPolicy) (url : String),
       robotsIsAllowed (robotsGateInit false fetch) url = true) ∧
    (∀ url : String, robotsIsAllowed (robotsGateInit true (.error ())) url = true) ∧
    (∀ (p : RobotsPolicy) (url : String), p.canFetch url = .error () →
       robotsIsAllowed (robotsGateInit true (.ok p)) url = true) := by
  refine ⟨fun fetch url => rfl, fun url => rfl, fun p url herr => ?_⟩
  simp only [robotsIsAllowed, robotsGateInit]
  simp [herr]

/-- Closed instance of C7: a fetched policy that denies everything is still
allowed through when the gate is disabled, and an erroring policy
evaluation is allowed through when enabled. -/
theorem robots_gate_fail_open_witness :
    robotsIsAllowed (robotsGateInit false (.ok ⟨fun _ => .ok false⟩)) "https://example.com/secret" = true ∧
    robotsIsAllowed (robotsGateInit true (.ok ⟨fun _ => .error ()⟩)) "https://example.com/secret" = true :=
  ⟨robots_gate_fail_open.1 (.ok ⟨fun _ => .ok false⟩) "https://example.com/secret",
   robots_gate_fail_open.2.2 ⟨fun _ => .error ()⟩ "https://example.com/secret" rfl⟩

/-! ## Job state machine (`JobManager._run`) -/

/-- C9: for any prior job state, an exception from the orchestrator turns
the state into status and phase `failed` with the message captured in
`error` and `message` set to `Scan failed`, leaves `summary` untouched —
in particular `none` for the state `start` creates — and the runner
returns normally (`jobAfterRun` is total: the `except` in `_run` consumes
the exception). -/
theorem job_failure_terminal_state :
    ∀ (σ : Type) (s0 : JobState σ) (msg finishedAt : String),
      (jobAfterRun σ s0 (.error msg) finishedAt).status = "failed" ∧
      (jobAfterRun σ s0 (.error msg) finishedAt).phase = "failed" ∧
      (jobAfterRun σ s0 (.error msg) finishedAt).error = some msg ∧
      (jobAfterRun σ s0 (.error msg) finishedAt).summary = s0.summary ∧
      ∀ jobId scanId siteUrl startedAt : String,
        (jobAfterRun σ (initialJobState σ jobId scanId siteUrl startedAt)
            (.error msg) finishedAt).summary = none :=
  fun _ _ _ _ => ⟨rfl, rfl, rfl, rfl, fun _ _ _ _ => rfl⟩

/-! ## Database replacement (`replace_site_assets`) -/

theorem insertAssetsAux_ok_append (scanId : String) (rows : List Row) :
    ∀ (st st2 : List AssetRec),
      insertAssetsAux scanId st rows = .ok st2 →
      st2 = st ++ rows.map (rowToAsset scanId) := by
  induction rows with
  | nil =>
    intro st st2 h
    simp only [insertAssetsAux] at h
    cases h
    simp
  | cons r rest ih =>
    intro st st2 h
    simp only [insertAssetsAux] at h
    by_cases hd : st.any (fun a => a.instance_key = r.instance_key) = true
    · rw [if_pos hd] at h; cases h
    · rw [if_neg hd] at h
      have := ih (st ++ [rowToAsset scanId r]) st2 h
      simpa [List.append_assoc] using this

theorem upsertMeta_filter_eq (meta : List MetaRec) (site scanId now : String)
    (h : (meta.filter (fun m => m.site_url = site)).length ≤ 1) :
    (upsertMeta meta site scanId now).filter (fun m => m.site_url = site) =
      [⟨site, scanId, now, "done"⟩] := by
  by_cases hany : meta.any (fun m => m.site_url = site) = true
  · have hmap : ∀ l : List MetaRec,
        (l.map (fun m => if m.site_url = site then (⟨site, scanId, now, "done"⟩ : MetaRec) else m)).filter
            (fun m => m.site_url = site) =
          List.replicate ((l.filter (fun m => m.site_url = site)).length)
            (⟨site, scanId, now, "done"⟩ : MetaRec) := by
      intro l
      induction l with
      | nil => rfl
      | cons m rest ihm =>
        by_cases hm : m.site_url = site
        · simp only [List.map_cons, if_pos hm, List.filter_cons, hm]
          simp [ihm, List.replicate_succ]
        · simp only [List.map_cons, if_neg hm, List.filter_cons]
          simp [hm, ihm]
    have hlen : 1 ≤ (meta.filter (fun m => m.site_url = site)).length := by
      obtain ⟨m, hm, hms⟩ := List.any_eq_true.mp hany
      have hmem : m ∈ meta.filter (fun m => m.site_url = site) :=
        List.mem_filter.mpr ⟨hm, hms⟩
      exact List.length_pos.mpr (List.ne_nil_of_mem hmem)
    have hone : (meta.filter (fun m => m.site_url = site)).length = 1 := le_antisymm h hlen
    simp only [upsertMeta, hany, if_true, hmap, hone, List.replicate_one]
  · have hfil : meta.filter (fun m => m.site_url = site) = [] := by
      rw [List.filter_eq_nil_iff]
      intro m hm
      simp only [decide_eq_true_eq]
      intro hms
      exact hany (List.any_eq_true.mpr ⟨m, hm, by simpa using hms⟩)
    simp only [upsertMeta, hany, Bool.false_eq_true, if_false, List.filter_append, hfil,
      List.nil_append, List.filter_cons]
    simp

/-- C8: with all rows belonging to the target site and the scan-meta
primary key intact, two successive successful replacements leave exactly
the second call's rows queryable for that site, leave every other site's
rows untouched after each call, leave the scan-meta record pointing at the
second scan, and a failing transaction body commits nothing: the connection
state after the rollback is the pre-transaction state. -/
theorem replace_site_assets_second_wins_and_atomic :
    ∀ (db : DBState) (site id1 t1 id2 t2 : String) (rows1 rows2 : List Row)
      (db1 db2 : DBState),
      (∀ r ∈ rows1, r.site_url = site) →
      (∀ r ∈ rows2, r.site_url = site) →
      (metaForSite db site).length ≤ 1 →
      replaceSiteAssetsTxn db site id1 t1 rows1 = .ok db1 →
      replaceSiteAssetsTxn db1 site id2 t2 rows2 = .ok db2 →
      assetsForSite db2 site = rows2.map (rowToAsset id2) ∧
      (∀ other, other ≠ site → assetsForSite db1 other = assetsForSite db other) ∧
      (∀ other, other ≠ site → assetsForSite db2 other = assetsForSite db other) ∧
      metaForSite db2 site = [⟨site, id2, t2, "done"⟩] ∧
      (∀ (dbp : DBState) (sid now : String) (rows : List Row),
         replaceSiteAssetsTxn dbp site sid now rows = .error () →
         replaceSiteAssetsCommitted dbp site sid now rows = dbp) := by
  intro db site id1 t1 id2 t2 rows1 rows2 db1 db2 hr1 hr2 hmeta h1 h2
  have hsite1 : ∀ a ∈ rows1.map (rowToAsset id1), a.site_url = site := by
    intro a ha
    obtain ⟨r, hr, rfl⟩ := List.mem_map.mp ha
    exact hr1 r hr
  have hsite2 : ∀ a ∈ rows2.map (rowToAsset id2), a.site_url = site := by
    intro a ha
    obtain ⟨r, hr, rfl⟩ := List.mem_map.mp ha
    exact hr2 r hr
  simp only [replaceSiteAssetsTxn] at h1 h2
  rcases hins1 : insertAssetsAux id1 (db.assets.filter (fun a => a.site_url ≠ site)) rows1 with e1 | a1
  · rw [hins1] at h1; cases h1
  rw [hins1] at h1
  cases h1
  rcases hins2 : insertAssetsAux id2
      ((⟨a1, upsertMeta db.meta site id1 t1⟩ : DBState).assets.filter
        (fun a => a.site_url ≠ site)) rows2 with e2 | a2
  · rw [hins2] at h2; cases h2
  rw [hins2] at h2
  cases h2
  have ha1 : a1 = db.assets.filter (fun a => a.site_url ≠ site) ++ rows1.map (rowToAsset id1) :=
    insertAssetsAux_ok_append id1 rows1 _ _ hins1
  have ha2 : a2 = a1.filter (fun a => a.site_url ≠ site) ++ rows2.map (rowToAsset id2) :=
    insertAssetsAux_ok_append id2 rows2 _ _ hins2
  subst ha1
  have hfilmap1 : (rows1.map (rowToAsset id1)).filter (fun a => a.site_url ≠ site) = [] := by
    rw [List.filter_eq_nil_iff]
    intro a ha
    simp [hsite1 a ha]
  have hfil2 : (db.assets.filter (fun a => a.site_url ≠ site) ++
      rows1.map (rowToAsset id1)).filter (fun a => a.site_url ≠ site) =
      db.assets.filter (fun a => a.site_url ≠ site) := by
    rw [List.filter_append, hfilmap1, List.append_nil, List.filter_filter]
    apply List.filter_congr
    intro a _
    simp
  rw [hfil2] at ha2
  subst ha2
  refine ⟨?_, ?_, ?_, ?_, ?_⟩
  · simp only [assetsForSite, List.filter_append]
    have hleft : (db.assets.filter (fun a => a.site_url ≠ site)).filter
        (fun a => a.site_url = site) = [] := by
      rw [List.filter_eq_nil_iff]
      intro a ha
      have := List.mem_filter.mp ha
      simpa using this.2
    have hright : (rows2.map (rowToAsset id2)).filter (fun a => a.site_url = site) =
        rows2.map (rowToAsset id2) := by
      rw [List.filter_eq_self]
      intro a ha
      simp [hsite2 a ha]
    rw [hleft, hright, List.nil_append]
  · intro other hne
    simp only [assetsForSite, List.filter_append]
    have hmap1 : (rows1.map (rowToAsset id1)).filter (fun a => a.site_url = other) = [] := by
      rw [List.filter_eq_nil_iff]
      intro a ha
      simp [hsite1 a ha, Ne.symm hne]
    rw [hmap1, List.append_nil, List.filter_filter]
    apply List.filter_congr
    intro a _
    by_cases hao : a.site_url = other
    · simp [hao, hne]
    · simp [hao]
  · intro other hne
    simp only [assetsForSite, List.filter_append]
    have hmap2 : (rows2.map (rowToAsset id2)).filter (fun a => a.site_url = other) = [] := by
      rw [List.filter_eq_nil_iff]
      intro a ha
      simp [hsite2 a ha, Ne.symm hne]
    rw [hmap2, List.append_nil, List.filter_filter]
    apply List.filter_congr
    intro a _
    by_cases hao : a.site_url = other
    · simp [hao, hne]
    · simp [hao]
  · have hstep1 : (upsertMeta db.meta site id1 t1).filter
        (fun m => m.site_url = site) = [⟨site, id1, t1, "done"⟩] :=
      upsertMeta_filter_eq db.meta site id1 t1 (by simpa [metaForSite] using hmeta)
    have hlen1 : ((upsertMeta db.meta site id1 t1).filter
        (fun m => m.site_url = site)).length ≤ 1 := by
      rw [hstep1]; simp
    simpa [metaForSite] using
      upsertMeta_filter_eq (upsertMeta db.meta site id1 t1) site id2 t2 hlen1
  · intro dbp sid now rows herr
    simp only [replaceSiteAssetsCommitted, herr]

/-- Closed instance of C8 on a two-site database: after two replacements of
site `s1`, only the second scan's rows are queryable for `s1`, site `s2` is
untouched, and the meta record points at the second scan. -/
theorem replace_site_assets_witness :
    assetsForSite c8db2 "https://s1" = c8rows2.map (rowToAsset "id2") ∧
    assetsForSite c8db2 "https://s2" = assetsForSite c8db0 "https://s2" ∧
    metaForSite c8db2 "https://s1" = [⟨"https://s1", "id2", "t2", "done"⟩] := by
  have h := replace_site_assets_second_wins_and_atomic c8db0 "https://s1" "id1" "t1"
    "id2" "t2" c8rows1 c8rows2 c8db1 c8db2
    (by decide) (by decide) (by decide) (by rfl) (by rfl)
  exact ⟨h.1, h.2.2.1 "https://s2" (by decide), h.2.2.2.1⟩

/-! ## Attribute URL parsing (`parse_attribute_urls`) -/

theorem pyStrip_eq_rdropWhile (s : List Char) :
    pyStrip s = List.rdropWhile pyIsSpace (s.dropWhile pyIsSpace) := rfl

theorem dropWhile_head_false (p : Char → Bool) (s : List Char) :
    ∀ c l, s.dropWhile p = c :: l → p c = false := by
  induction s with
  | nil => intro c l h; simp at h
  | cons a t ih =>
    intro c l h
    by_cases hp : p a
    · rw [List.dropWhile_cons_of_pos hp] at h
      exact ih c l h
    · rw [List.dropWhile_cons_of_neg hp] at h
      cases h
      simpa using hp

theorem pyStrip_head_not (s : List Char) (c : Char) (t : List Char)
    (h : pyStrip s = c :: t) : pyIsSpace c = false := by
  rw [pyStrip_eq_rdropWhile] at h
  obtain ⟨r, hr⟩ := List.rdropWhile_prefix pyIsSpace (s.dropWhile pyIsSpace)
  rw [h] at hr
  exact dropWhile_head_false pyIsSpace s c (t ++ r) hr.symm

theorem pyStrip_cons_ne_nil (c : Char) (x : List Char) (hc : pyIsSpace c = false) :
    pyStrip (c :: x) ≠ [] := by
  rw [pyStrip_eq_rdropWhile, List.dropWhile_cons_of_neg (by simp [hc])]
  intro hnil
  have := List.rdropWhile_eq_nil_iff.mp hnil c (by simp)
  simp [hc] at this

/-- The claim as amended (C6): a srcset-style value splits on commas and
yields, for each entry that is nonempty after stripping, the stripped part
before the first space character — the space character only, not every
whitespace character; an ordinary attribute yields the trimmed whole value
exactly when nonempty. -/
theorem parse_attribute_urls_tokens (attrName : String) (v : String) :
    parseAttributeUrls attrName (.str v) =
      if attrName = "srcset" then specSrcsetTokens v else specOrdinaryTokens v := by
  rw [parseAttributeUrls]
  by_cases hsr : attrName = "srcset"
  · rw [if_pos hsr, parseStrAttr, if_pos hsr, specSrcsetTokens]
    apply List.filterMap_congr
    intro entry _
    rcases he : pyStrip entry with _ | ⟨c, t⟩
    · simp
    · have hc : pyIsSpace c = false := pyStrip_head_not entry c t he
      have hcs : c ≠ ' ' := by
        intro hcsp
        rw [hcsp] at hc
        simp [pyIsSpace] at hc
      simp only [he, List.isEmpty_cons, beforeFirst]
      rw [List.takeWhile_cons_of_pos (by simpa using hcs)]
      have hne := pyStrip_cons_ne_nil c (t.takeWhile (fun x => x ≠ ' ')) hc
      simp only [List.isEmpty_eq_true, hne, if_false, Bool.false_eq_true]
  · rw [if_neg hsr, parseStrAttr, if_neg hsr, specOrdinaryTokens]

/-- The claim as frozen is false on the code (C6): with a tab separating
the URL from its density descriptor, `parse_attribute_urls` does not yield
the leading whitespace-delimited token `a.png` — it yields the whole entry,
tab included, because the split is on the space character only. -/
theorem parse_attribute_urls_counterexample :
    parseAttributeUrls "srcset" (.str "a.png\t2x") = ["a.png\t2x"] ∧
    parseAttributeUrls "srcset" (.str "a.png\t2x") ≠ ["a.png"] := by
  constructor
  · rfl
  · decide

/-! ## Resource classification (`classify_resource_type`) -/

/-- C5: whenever the (normalized) URL splits, `classify_resource_type`
returns exactly one category of the fixed enumeration, and that category
is the one prescribed by the claim's precedence (extension table first and
short-circuiting, then the tag/attribute heuristics, then the docs
fallback), as captured by `specClassify`. -/
theorem classify_resource_type_precedence :
    ∀ (url tag attr : String) (attrs : List (String × RawValue)) (p : SplitParts),
      urlsplitM [] url.toList = .ok p →
      classifyResourceType url tag attr attrs = .ok (specClassify tag attr attrs p) ∧
      specClassify tag attr attrs p ∈ RESOURCE_TYPES := by
  intro url tag attr attrs p hsplit
  constructor
  · simp only [classifyResourceType, hsplit, specClassify]
    split
    · rfl
    · by_cases h1 : tag = "script" ∧ attr = "src"
      · simp [h1]
      · by_cases h2 : tag = "img"
        · simp [h1, h2]
        · by_cases h3 : tag = "video"
          · simp [h1, h2, h3]
          · by_cases h4 : tag = "audio"
            · simp [h1, h2, h3, h4]
            · by_cases h5 : tag = "track"
              · simp [h1, h2, h3, h4, h5]
              · have hor : ¬ (tag = "video" ∨ tag = "audio" ∨ tag = "track") := by
                  simp [h3, h4, h5]
                by_cases h6 : tag = "link" ∧ attr = "href"
                · simp only [if_neg h1, if_neg h2, if_neg h3, if_neg h4, if_neg h5,
                    if_neg hor, if_pos h6]
                  split_ifs <;> rfl
                · simp only [if_neg h1, if_neg h2, if_neg h3, if_neg h4, if_neg h5,
                    if_neg hor, if_neg h6]
                  rfl
  · have hall : ∀ r : ResourceType, r ∈ RESOURCE_TYPES := by
      intro r; cases r <;> simp [RESOURCE_TYPES]
    exact hall _

/-- Closed instance of C5: a preload link with `as=style` and no extension
match classifies as css. -/
theorem classify_resource_type_witness :
    classifyResourceType "https://e.com/x" "link" "href"
      [("rel", .lst [.str "preload"]), ("as", .str "style")] = .ok .css := by
  have h := classify_resource_type_precedence "https://e.com/x" "link" "href"
    [("rel", .lst [.str "preload"]), ("as", .str "style")]
    ⟨"https".toList, "e.com".toList, "/x".toList, [], []⟩ (by rfl)
  exact h.1.trans (by decide)

/-! ## URL identity normalization (`normalize_identity_url`): C1 -/

/-- The claim as frozen is false on the code (C1): an explicit default port
is not dropped — `SplitResult.port` knows nothing about scheme defaults and
`normalize_identity_url` keeps any nonzero validated port — so two URLs
differing only by an explicit `:443` normalize to different values. -/
theorem normalize_default_port_counterexample :
    normalizeIdentityUrl "https://example.com:443/" ≠ normalizeIdentityUrl "https://example.com/" ∧
    normalizeIdentityUrl "https://example.com:443/" = some "https://example.com:443/" ∧
    normalizeIdentityUrl "https://example.com/" = some "https://example.com/" := by
  refine ⟨?_, rfl, rfl⟩
  decide

/-- The claim as amended (C1): normalization is invariant under the
fragment and under the letter-casing of the host (and of anything else
that leaves the extracted host equal up to ASCII case and the port text
equal) — for two valid URLs whose splits agree on scheme, path and query
and whose netlocs carry case-equal hosts and equal port texts, the
normalized results coincide; the fragment is unconstrained.  The
default-port equivalence of the original claim is dropped: an explicit
default port is preserved (see the counterexample). -/
theorem normalize_fragment_host_case_invariance :
    ∀ (u1 u2 : String) (p1 p2 : SplitParts),
      urlsplitM [] u1.toList = .ok p1 →
      urlsplitM [] u2.toList = .ok p2 →
      p1.scheme = p2.scheme →
      p1.path = p2.path →
      p1.query = p2.query →
      (rawHostOf p1.netloc).map Char.toLower = (rawHostOf p2.netloc).map Char.toLower →
      rawPortStrOf p1.netloc = rawPortStrOf p2.netloc →
      normalizeIdentityUrl u1 = normalizeIdentityUrl u2 := by
  intro u1 u2 p1 p2 h1 h2 hs hp hq hh hpt
  simp only [normalizeIdentityUrl, normCore, idParts, h1, h2]
  rw [hs, hp, hq, hh, hpt]

/-- Closed instance of C1 (amended): host case, userinfo and fragment
differences do not change the normalized identity. -/
theorem normalize_fragment_host_case_witness :
    normalizeIdentityUrl "http://user@EXAMPLE.com:8080/a?q#f1" =
      normalizeIdentityUrl "http://EXAMPLE.COM:8080/a?q#f2" :=
  normalize_fragment_host_case_invariance
    "http://user@EXAMPLE.com:8080/a?q#f1" "http://EXAMPLE.COM:8080/a?q#f2"
    ⟨"http".toList, "user@EXAMPLE.com:8080".toList, "/a".toList, "q".toList, "f1".toList⟩
    ⟨"http".toList, "EXAMPLE.COM:8080".toList, "/a".toList, "q".toList, "f2".toList⟩
    (by decide) (by decide) rfl rfl rfl (by decide) (by decide)

/-! ## URL identity normalization: rejection characterization (C4) -/

theorem isPrefixOf_append (x z : List Char) : x.isPrefixOf (x ++ z) = true := by
  induction x with
  | nil => simp [List.isPrefixOf]
  | cons a t ih => simp [List.isPrefixOf, ih]

theorem startsHttpOk_of_shape (sch rest : List Char)
    (h : sch = httpL ∨ sch = httpsL) :
    startsHttpOk (sch ++ ':' :: '/' :: '/' :: rest) = true := by
  rcases h with h | h
  · subst h
    have he : httpL ++ ':' :: '/' :: '/' :: rest = (httpL ++ [':', '/', '/']) ++ rest := by
      simp
    rw [startsHttpOk, he, isPrefixOf_append]
    simp
  · subst h
    have he : httpsL ++ ':' :: '/' :: '/' :: rest = (httpsL ++ [':', '/', '/']) ++ rest := by
      simp
    rw [startsHttpOk, he, isPrefixOf_append]
    simp

theorem ite_isEmpty_none_some (x ps : List Char)
    (h : (if x.isEmpty = true then none else some x) = some ps) : ps ≠ [] := by
  by_cases he : x.isEmpty = true
  · rw [if_pos he] at h; cases h
  · rw [if_neg he] at h
    cases h
    simpa [List.isEmpty_iff] using he

theorem rawPortStrOf_some_ne_nil (n ps : List Char) (h : rawPortStrOf n = some ps) :
    ps ≠ [] := by
  simp only [rawPortStrOf] at h
  exact ite_isEmpty_none_some _ ps h

/-- The scheme-lowering in the reassembly is the identity on the two
accepted schemes. -/
theorem map_toLower_scheme (sch : List Char) (h : sch = httpL ∨ sch = httpsL) :
    sch.map Char.toLower = sch := by
  rcases h with h | h <;> subst h <;> rfl

/-- `urlunsplit` with a nonempty netloc and scheme and no fragment yields
the scheme, a colon, a double slash and a remainder. -/
theorem urlunsplitM_netloc_shape (scheme netloc path query : List Char)
    (hn : netloc.isEmpty = false) (hs : scheme.isEmpty = false) :
    ∃ rest, urlunsplitM scheme netloc path query [] =
      scheme ++ ':' :: '/' :: '/' :: rest := by
  have hc1 : ¬ netloc.isEmpty = true ∨
      (¬ scheme.isEmpty = true ∧ usesNetloc.contains (String.mk scheme) = true ∧
       path.take 2 ≠ ['/', '/']) := Or.inl (by simp [hn])
  have hc2 : ¬ scheme.isEmpty = true := by simp [hs]
  have hc4 : ¬ ¬ ([] : List Char).isEmpty = true := by simp
  simp only [urlunsplitM]
  rw [if_pos hc1, if_pos hc2, if_neg hc4]
  by_cases hq : query.isEmpty = true
  · rw [if_neg (by simp [hq])]
    exact ⟨_, rfl⟩
  · rw [if_pos (by simp at hq ⊢; exact hq)]
    exact ⟨_, by rw [List.append_assoc]; rfl⟩

/-- With a nonempty host and scheme, the reassembled identity URL is the
lowered scheme, a colon, a double slash and a remainder. -/
theorem renderIdParts_shape (np : IdParts) (hh : np.host ≠ []) (hsch : np.scheme ≠ []) :
    ∃ rest, renderIdParts np = (np.scheme.map Char.toLower) ++ ':' :: '/' :: '/' :: rest := by
  have hnet : (match np.port with
      | none => np.host
      | some n => np.host ++ ':' :: natRepr n) ≠ [] := by
    cases np.port with
    | none => simpa using hh
    | some n => simp
  have hn : (match np.port with
      | none => np.host
      | some n => np.host ++ ':' :: natRepr n).isEmpty = false := by
    simpa [List.isEmpty_iff] using hnet
  have hs : (np.scheme.map Char.toLower).isEmpty = false := by
    simpa [List.isEmpty_iff] using hsch
  simp only [renderIdParts]
  exact urlunsplitM_netloc_shape _ _ _ _ hn hs

/-- The reassembled identity URL of accepted parts always passes the final
`startswith` guard. -/
theorem startsHttpOk_renderIdParts (np : IdParts)
    (hs : np.scheme = httpL ∨ np.scheme = httpsL) (hh : np.host ≠ []) :
    startsHttpOk (renderIdParts np) = true := by
  have hsch : np.scheme ≠ [] := by
    rcases hs with h | h <;> simp [h, httpL, httpsL]
  obtain ⟨rest, hr⟩ := renderIdParts_shape np hh hsch
  rw [hr, map_toLower_scheme np.scheme hs]
  exact startsHttpOk_of_shape np.scheme rest hs

/-- Accepted identity parts carry an http(s) scheme and a nonempty host. -/
theorem idParts_some_startsOk (s : List Char) (np : IdParts) (h : idParts s = some np) :
    (np.scheme = httpL ∨ np.scheme = httpsL) ∧ np.host ≠ [] := by
  simp only [idParts] at h
  split at h
  · cases h
  · rename_i p hp
    split at h
    · rename_i hsc
      split at h
      · cases h
      · rename_i hhost
        split at h
        · cases h
          exact ⟨hsc, by simpa [List.isEmpty_iff] using hhost⟩
        · rename_i ps hps
          split at h
          · split at h
            · cases h
              exact ⟨hsc, by simpa [List.isEmpty_iff] using hhost⟩
            · cases h
          · cases h
    · cases h

/-- The final `startswith` guard never rejects an accepted candidate, so
`normalize_identity_url` returns nothing exactly when the parts extraction
does. -/
theorem normCore_none_iff (s : List Char) : normCore s = none ↔ idParts s = none := by
  constructor
  · intro h
    rcases hid : idParts s with _ | np
    · rfl
    · exfalso
      obtain ⟨hs, hh⟩ := idParts_some_startsOk s np hid
      simp only [normCore, hid, startsHttpOk_renderIdParts np hs hh] at h
      simp at h
  · intro h
    simp [normCore, h]

/-- C4: `normalize_identity_url` yields a rejection value (`None`, all
`ValueError`s from the parse being caught) exactly when the URL fails to
split (including a malformed bracketed host), the scheme is not http or
https, the host is missing, or the port text is not pure ASCII digits or
is out of the 0-65535 range — and a canonical URL in every other case. -/
theorem normalize_rejects_iff :
    ∀ u : String,
      normalizeIdentityUrl u = none ↔
        urlsplitM [] u.toList = .error () ∨
        ∃ p, urlsplitM [] u.toList = .ok p ∧
          ((p.scheme ≠ httpL ∧ p.scheme ≠ httpsL) ∨
           rawHostOf p.netloc = [] ∨
           ∃ ps, rawPortStrOf p.netloc = some ps ∧
             (¬ ps.all isDigitChar = true ∨ 65535 < digitsValue ps)) := by
  intro u
  have hnone : normalizeIdentityUrl u = none ↔ idParts u.toList = none := by
    rcases hnc : normCore u.toList with _ | v
    · exact iff_of_true (by simp only [normalizeIdentityUrl]; rw [hnc]; rfl)
        ((normCore_none_iff _).mp hnc)
    · refine iff_of_false (by simp only [normalizeIdentityUrl]; rw [hnc]; simp) ?_
      intro hid
      have hn2 := (normCore_none_iff u.toList).mpr hid
      rw [hn2] at hnc
      cases hnc
  rw [hnone]
  rcases hsp : urlsplitM [] u.toList with e | p
  · cases e
    exact iff_of_true (by simp only [idParts]; rw [hsp]) (Or.inl rfl)
  · constructor
    · intro hid
      refine Or.inr ⟨p, rfl, ?_⟩
      simp only [idParts, hsp] at hid
      by_cases hsc : p.scheme = httpL ∨ p.scheme = httpsL
      · rw [if_pos hsc] at hid
        by_cases hh : ((rawHostOf p.netloc).map Char.toLower).isEmpty = true
        · exact Or.inr (Or.inl (by simpa using hh))
        · rw [if_neg hh] at hid
          rcases hpt : rawPortStrOf p.netloc with _ | ps
          · simp only [hpt] at hid
            cases hid
          · simp only [hpt] at hid
            refine Or.inr (Or.inr ⟨ps, rfl, ?_⟩)
            by_cases hd : (¬ ps.isEmpty = true ∧ ps.all isDigitChar = true)
            · rw [if_pos hd] at hid
              by_cases hr : digitsValue ps ≤ 65535
              · rw [if_pos hr] at hid
                cases hid
              · exact Or.inr (by omega)
            · have hne := rawPortStrOf_some_ne_nil _ _ hpt
              left
              intro hall
              exact hd ⟨by simpa [List.isEmpty_iff] using hne, hall⟩
      · push_neg at hsc
        exact Or.inl hsc
    · intro hcond
      rcases hcond with herr | ⟨p', hp', hc⟩
      · cases herr
      · injection hp' with hpe
        subst hpe
        simp only [idParts, hsp]
        by_cases hsc : p.scheme = httpL ∨ p.scheme = httpsL
        · rw [if_pos hsc]
          rcases hc with hscn | hh | ⟨ps, hps, hbad⟩
          · exact absurd hsc (by tauto)
          · rw [if_pos (by simp [hh])]
          · by_cases hh : ((rawHostOf p.netloc).map Char.toLower).isEmpty = true
            · rw [if_pos hh]
            · rw [if_neg hh]
              simp only [hps]
              rcases hbad with hnd | hbig
              · rw [if_neg (by intro hand; exact hnd hand.2)]
              · by_cases hd : (¬ ps.isEmpty = true ∧ ps.all isDigitChar = true)
                · rw [if_pos hd, if_neg (by omega)]
                · rw [if_neg hd]
        · rw [if_neg hsc]

/-! ## URL identity normalization: idempotence (C10)

Re-parsing the reassembled identity URL requires computing `urlsplitM` on a
string of the shape `scheme ++ ':' :: '/' :: '/' :: (netloc ++ tail)`; the
lemmas below evaluate the splitting helpers on such shapes. -/

theorem takeWhile_dropWhile_app (p : Char → Bool) (a : List Char) (b : Char) (t : List Char)
    (ha : ∀ c ∈ a, p c = true) (hb : p b = false) :
    (a ++ b :: t).takeWhile p = a ∧ (a ++ b :: t).dropWhile p = b :: t := by
  induction a with
  | nil => simp [List.takeWhile_cons, List.dropWhile_cons, hb]
  | cons x xs ih =>
    have hx : p x = true := ha x (by simp)
    have ih' := ih (fun c hc => ha c (by simp [hc]))
    simp [List.takeWhile_cons, List.dropWhile_cons, hx, ih'.1, ih'.2]

theorem takeWhile_dropWhile_all (p : Char → Bool) (a : List Char)
    (ha : ∀ c ∈ a, p c = true) :
    a.takeWhile p = a ∧ a.dropWhile p = [] := by
  induction a with
  | nil => simp
  | cons x xs ih =>
    have hx : p x = true := ha x (by simp)
    have ih' := ih (fun c hc => ha c (by simp [hc]))
    simp [List.takeWhile_cons, List.dropWhile_cons, hx, ih'.1, ih'.2]

theorem beforeFirst_app (c : Char) (a t : List Char) (ha : ∀ x ∈ a, x ≠ c) :
    beforeFirst c (a ++ c :: t) = a ∧ afterFirst c (a ++ c :: t) = t := by
  have h := takeWhile_dropWhile_app (fun x => x ≠ c) a c t
    (fun x hx => by simpa using ha x hx) (by simp)
  exact ⟨h.1, by simp only [afterFirst, h.2, List.tail_cons]⟩

theorem beforeFirst_not_mem (c : Char) (a : List Char) (ha : ∀ x ∈ a, x ≠ c) :
    beforeFirst c a = a ∧ afterFirst c a = [] := by
  have h := takeWhile_dropWhile_all (fun x => x ≠ c) a
    (fun x hx => by simpa using ha x hx)
  exact ⟨h.1, by simp only [afterFirst, h.2, List.tail_nil]⟩

theorem afterLast_not_mem (c : Char) (s : List Char) (h : ∀ x ∈ s, x ≠ c) :
    afterLast c s = s := by
  have h' := takeWhile_dropWhile_all (fun x => x ≠ c) s.reverse
    (fun x hx => by simpa using h x (List.mem_reverse.mp hx))
  simp only [afterLast, h'.1, List.reverse_reverse]

theorem any_eq_false_of (p : Char → Bool) (l : List Char) (h : ∀ c ∈ l, p c = false) :
    l.any p = false := by
  induction l with
  | nil => rfl
  | cons a t ih =>
    simp [List.any_cons, h a (by simp), ih (fun c hc => h c (by simp [hc]))]

/-! ### ASCII lowercasing: `Char.toLower` is idempotent and fixes the URL
delimiters (whose code points lie below the lowercase letters). -/

theorem char_ofNat_upper_toNat (n : Nat) (h1 : 65 ≤ n) (h2 : n ≤ 90) :
    (Char.ofNat (n + 32)).toNat = n + 32 := by
  interval_cases n <;> decide

theorem toLower_cases (c : Char) :
    Char.toLower c = c ∨
    (65 ≤ c.toNat ∧ c.toNat ≤ 90 ∧ (Char.toLower c).toNat = c.toNat + 32) := by
  by_cases h : 65 ≤ c.toNat ∧ c.toNat ≤ 90
  · right
    refine ⟨h.1, h.2, ?_⟩
    simp only [Char.toLower]
    rw [if_pos h]
    exact char_ofNat_upper_toNat c.toNat h.1 h.2
  · left
    simp only [Char.toLower]
    rw [if_neg h]

theorem toLower_ne_low (c d : Char) (hd : d.toNat < 97) (hc : c ≠ d) :
    Char.toLower c ≠ d := by
  rcases toLower_cases c with h | ⟨h1, _, h3⟩
  · rw [h]; exact hc
  · intro he
    rw [he] at h3
    omega

theorem toLower_idem (c : Char) : Char.toLower (Char.toLower c) = Char.toLower c := by
  rcases toLower_cases c with h | ⟨h1, _, h3⟩
  · rw [h]; exact h
  · rcases toLower_cases (Char.toLower c) with h' | ⟨h1', h2', _⟩
    · exact h'
    · omega

theorem map_toLower_idem (l : List Char) :
    (l.map Char.toLower).map Char.toLower = l.map Char.toLower := by
  rw [List.map_map]
  have he : Char.toLower ∘ Char.toLower = Char.toLower := funext toLower_idem
  rw [he]

/-! ### Decimal digits: `str(port)` round-trips through the digit-only port
validation of the re-parse. -/

theorem digit_ofNat_facts (n : Nat) (h : n < 10) :
    isDigitChar (Char.ofNat ('0'.toNat + n)) = true ∧
    digitVal (Char.ofNat ('0'.toNat + n)) = n := by
  interval_cases n <;> exact ⟨by decide, by decide⟩

theorem digitChar_tame (c : Char) (h : isDigitChar c = true) :
    isNetlocEnd c = false ∧ c ≠ ':' ∧ c ≠ '@' ∧ c ≠ '[' ∧ c ≠ ']' ∧
    c ≠ '#' ∧ c ≠ '?' ∧ c ≠ '\t' ∧ c ≠ '\r' ∧ c ≠ '\n' := by
  have hne : ∀ d : Char, isDigitChar d = false → c ≠ d := by
    intro d hd he
    rw [he] at h
    rw [h] at hd
    cases hd
  refine ⟨?_, hne ':' (by decide), hne '@' (by decide), hne '[' (by decide),
    hne ']' (by decide), hne '#' (by decide), hne '?' (by decide),
    hne '\t' (by decide), hne '\r' (by decide), hne '\n' (by decide)⟩
  have h1 := hne '/' (by decide)
  have h2 := hne '?' (by decide)
  have h3 := hne '#' (by decide)
  simp [isNetlocEnd, h1, h2, h3]

theorem natReprAux_all_digits (fuel : Nat) :
    ∀ n, ∀ c ∈ natReprAux fuel n, isDigitChar c = true := by
  induction fuel with
  | zero => intro n c hc; simp [natReprAux] at hc
  | succ f ih =>
    intro n c hc
    simp only [natReprAux] at hc
    split at hc
    · rename_i hlt
      simp only [List.mem_singleton] at hc
      subst hc
      exact (digit_ofNat_facts n hlt).1
    · rw [List.mem_append] at hc
      rcases hc with hc | hc
      · exact ih (n / 10) c hc
      · simp only [List.mem_singleton] at hc
        subst hc
        exact (digit_ofNat_facts (n % 10) (Nat.mod_lt n (by norm_num))).1

theorem natRepr_all_digits (n : Nat) : ∀ c ∈ natRepr n, isDigitChar c = true :=
  natReprAux_all_digits (n + 1) n

theorem natRepr_ne_nil (n : Nat) : natRepr n ≠ [] := by
  simp only [natRepr, natReprAux]
  split
  · simp
  · simp

theorem digitsValue_append_singleton (a : List Char) (c : Char) :
    digitsValue (a ++ [c]) = digitsValue a * 10 + digitVal c := by
  simp [digitsValue, List.foldl_append]

theorem natReprAux_value (fuel : Nat) :
    ∀ n, n < 10 ^ fuel → digitsValue (natReprAux fuel n) = n := by
  induction fuel with
  | zero =>
    intro n hn
    interval_cases n
    rfl
  | succ f ih =>
    intro n hn
    simp only [natReprAux]
    split
    · rename_i hlt
      have hd := (digit_ofNat_facts n hlt).2
      simp only [digitsValue, List.foldl_cons, List.foldl_nil, Nat.zero_mul, Nat.zero_add]
      exact hd
    · rename_i hge
      have hdiv : n / 10 < 10 ^ f := by
        have hp : (10 : Nat) ^ (f + 1) = 10 ^ f * 10 := pow_succ 10 f
        rw [hp, Nat.mul_comm] at hn
        exact Nat.div_lt_of_lt_mul hn
      rw [digitsValue_append_singleton, ih (n / 10) hdiv,
        (digit_ofNat_facts (n % 10) (Nat.mod_lt n (by norm_num))).2]
      omega

theorem digitsValue_natRepr (n : Nat) : digitsValue (natRepr n) = n :=
  natReprAux_value (n + 1) n
    (lt_of_lt_of_le (Nat.lt_pow_self (by norm_num) n)
      (Nat.pow_le_pow_right (by norm_num) (Nat.le_succ n)))

/-! ### `urlsplit` preprocessing and reassembly on clean inputs -/

theorem preprocess_mem (c : Char) (s : List Char) (h : c ∈ preprocess s) :
    c ≠ '\t' ∧ c ≠ '\r' ∧ c ≠ '\n' := by
  simp only [preprocess, List.mem_filter] at h
  have h2 : (¬ c = '\t' ∧ ¬ c = '\r') ∧ ¬ c = '\n' := by simpa using h.2
  exact ⟨h2.1.1, h2.1.2, h2.2⟩

theorem preprocess_eq_self (a : Char) (s : List Char)
    (ha : ¬ a.val ≤ 0x20)
    (hall : ∀ c ∈ a :: s, c ≠ '\t' ∧ c ≠ '\r' ∧ c ≠ '\n') :
    preprocess (a :: s) = a :: s := by
  simp only [preprocess, List.dropWhile_cons]
  rw [if_neg (by simpa using ha)]
  rw [List.filter_eq_self.mpr (fun c hc => by
    simp [(hall c hc).1, (hall c hc).2.1, (hall c hc).2.2])]

theorem urlunsplitM_eval (scheme netloc path query : List Char)
    (hn : netloc.isEmpty = false) (hs : scheme.isEmpty = false)
    (hp : path.take 1 = ['/']) :
    urlunsplitM scheme netloc path query [] =
      scheme ++ ':' :: '/' :: '/' :: (netloc ++
        (path ++ if query.isEmpty = true then [] else '?' :: query)) := by
  have hc1 : ¬ netloc.isEmpty = true ∨
      (¬ scheme.isEmpty = true ∧ usesNetloc.contains (String.mk scheme) = true ∧
       path.take 2 ≠ ['/', '/']) := Or.inl (by simp [hn])
  have hc0 : ¬ (¬ path.isEmpty = true ∧ path.take 1 ≠ ['/']) := by
    intro hand
    exact hand.2 hp
  have hc2 : ¬ scheme.isEmpty = true := by simp [hs]
  have hc4 : ¬ ¬ ([] : List Char).isEmpty = true := by simp
  simp only [urlunsplitM]
  rw [if_pos hc1, if_neg hc0, if_pos hc2, if_neg hc4]
  by_cases hq : query.isEmpty = true
  · rw [if_neg (by simp [hq]), if_pos hq]
    simp
  · rw [if_pos (by simpa using hq), if_neg hq]
    simp

/-! ### `hostname` / `port` of a reassembled unbracketed netloc -/

theorem rawHost_unbracketed_none (host : List Char)
    (h : ∀ c ∈ host, c ≠ ':' ∧ c ≠ '@' ∧ c ≠ '[') :
    rawHostOf host = host ∧ rawPortStrOf host = none := by
  have hat : hostinfoOf host = host :=
    afterLast_not_mem '@' host (fun x hx => (h x hx).2.1)
  have hbr : host.any (fun c => c = '[') = false :=
    any_eq_false_of _ host (fun c hc => by simpa using (h c hc).2.2)
  have hbf := beforeFirst_not_mem ':' host (fun x hx => (h x hx).1)
  have hbr' : ¬ (host.any fun c => c = '[') = true := by
    rw [hbr]; decide
  constructor
  · simp only [rawHostOf, hat]
    rw [if_neg hbr']
    exact hbf.1
  · simp only [rawPortStrOf, hat]
    rw [if_neg hbr', hbf.2]
    rfl

theorem rawHost_unbracketed_some (host : List Char) (n : Nat)
    (h : ∀ c ∈ host, c ≠ ':' ∧ c ≠ '@' ∧ c ≠ '[') :
    rawHostOf (host ++ ':' :: natRepr n) = host ∧
    rawPortStrOf (host ++ ':' :: natRepr n) = some (natRepr n) := by
  have hmem : ∀ c ∈ host ++ ':' :: natRepr n, c ≠ '@' ∧ c ≠ '[' := by
    intro c hc
    rw [List.mem_append, List.mem_cons] at hc
    rcases hc with hc | hc | hc
    · exact ⟨(h c hc).2.1, (h c hc).2.2⟩
    · subst hc; exact ⟨by decide, by decide⟩
    · have hd := digitChar_tame c (natRepr_all_digits n c hc)
      exact ⟨hd.2.2.1, hd.2.2.2.1⟩
  have hat : hostinfoOf (host ++ ':' :: natRepr n) = host ++ ':' :: natRepr n :=
    afterLast_not_mem '@' _ (fun x hx => (hmem x hx).1)
  have hbr : (host ++ ':' :: natRepr n).any (fun c => c = '[') = false :=
    any_eq_false_of _ _ (fun c hc => by simpa using (hmem c hc).2)
  have hbf := beforeFirst_app ':' host (natRepr n) (fun x hx => (h x hx).1)
  have hne : (natRepr n).isEmpty = false := by
    simpa [List.isEmpty_iff] using natRepr_ne_nil n
  have hbr' : ¬ ((host ++ ':' :: natRepr n).any fun c => c = '[') = true := by
    rw [hbr]; decide
  constructor
  · simp only [rawHostOf, hat]
    rw [if_neg hbr']
    exact hbf.1
  · simp only [rawPortStrOf, hat]
    rw [if_neg hbr', hbf.2]
    rw [if_neg (by simp [hne])]

/-- `urlsplit` of a reassembled identity URL: an http(s) scheme, an
unbracketed netloc free of delimiters, and a slash-led remainder with no
hash sign split back into exactly those components. -/
theorem urlsplitM_render (sch netloc z : List Char)
    (hA : ∃ a t, sch = a :: t ∧ a.isAlpha = true ∧ ¬ a.val ≤ 0x20)
    (hS : sch.all isSchemeChar = true)
    (hsc : ∀ c ∈ sch, c ≠ ':' ∧ c ≠ '\t' ∧ c ≠ '\r' ∧ c ≠ '\n')
    (hlow : sch.map Char.toLower = sch)
    (hn : ∀ c ∈ netloc, isNetlocEnd c = false ∧ c ≠ '[' ∧ c ≠ ']' ∧
      c ≠ '\t' ∧ c ≠ '\r' ∧ c ≠ '\n')
    (ht : ∀ c ∈ '/' :: z, c ≠ '#' ∧ c ≠ '\t' ∧ c ≠ '\r' ∧ c ≠ '\n') :
    urlsplitM [] (sch ++ ':' :: '/' :: '/' :: (netloc ++ '/' :: z)) =
      .ok ⟨sch, netloc, beforeFirst '?' ('/' :: z), afterFirst '?' ('/' :: z), []⟩ := by
  obtain ⟨a, t0, heq, ha, hav⟩ := hA
  subst heq
  have hshape : (a :: t0) ++ ':' :: '/' :: '/' :: (netloc ++ '/' :: z)
      = a :: (t0 ++ ':' :: '/' :: '/' :: (netloc ++ '/' :: z)) := by simp
  have hmem : ∀ c ∈ a :: (t0 ++ ':' :: '/' :: '/' :: (netloc ++ '/' :: z)),
      c ≠ '\t' ∧ c ≠ '\r' ∧ c ≠ '\n' := by
    intro c hc
    simp only [List.mem_cons, List.mem_append] at hc
    rcases hc with rfl | hc | rfl | rfl | rfl | hc | rfl | hc
    · exact (hsc c (by simp)).2
    · exact (hsc c (by simp [hc])).2
    · exact ⟨by decide, by decide, by decide⟩
    · exact ⟨by decide, by decide, by decide⟩
    · exact ⟨by decide, by decide, by decide⟩
    · exact (hn c hc).2.2.2
    · exact ⟨by decide, by decide, by decide⟩
    · exact (ht c (by simp [hc])).2
  have hpre : preprocess ((a :: t0) ++ ':' :: '/' :: '/' :: (netloc ++ '/' :: z))
      = (a :: t0) ++ ':' :: '/' :: '/' :: (netloc ++ '/' :: z) := by
    rw [hshape]
    exact preprocess_eq_self a _ hav hmem
  have hbf := beforeFirst_app ':' (a :: t0) ('/' :: '/' :: (netloc ++ '/' :: z))
    (fun x hx => (hsc x hx).1)
  have hany : ((a :: t0) ++ ':' :: '/' :: '/' :: (netloc ++ '/' :: z)).any
      (fun c => c = ':') = true := by
    rw [List.any_eq_true]
    exact ⟨':', by simp, by simp⟩
  have hss : schemeSplit [] ((a :: t0) ++ ':' :: '/' :: '/' :: (netloc ++ '/' :: z))
      = (a :: t0, '/' :: '/' :: (netloc ++ '/' :: z)) := by
    simp only [schemeSplit]
    rw [if_pos hany]
    simp only [hbf.1]
    rw [if_pos (by simp [ha, hS])]
    rw [hlow, hbf.2]
  have htd := takeWhile_dropWhile_app (fun c => ¬ isNetlocEnd c) netloc '/' z
    (fun c hc => by simp [(hn c hc).1]) (by decide)
  have hns : netlocSplit ('/' :: '/' :: (netloc ++ '/' :: z)) = (netloc, '/' :: z) := by
    have hred : netlocSplit ('/' :: '/' :: (netloc ++ '/' :: z)) =
        ((netloc ++ '/' :: z).takeWhile (fun c => ¬ isNetlocEnd c),
         (netloc ++ '/' :: z).dropWhile (fun c => ¬ isNetlocEnd c)) := rfl
    rw [hred, htd.1, htd.2]
  have hbrf : ¬ bracketErr netloc = true := by
    have h1 : (netloc.any fun c => c = '[') = false :=
      any_eq_false_of _ _ (fun c hc => by simpa using (hn c hc).2.1)
    have h2 : (netloc.any fun c => c = ']') = false :=
      any_eq_false_of _ _ (fun c hc => by simpa using (hn c hc).2.2.1)
    simp [bracketErr, h1, h2]
  have hbf3 := beforeFirst_not_mem '#' ('/' :: z) (fun x hx => (ht x hx).1)
  simp only [urlsplitM, hpre]
  rw [show cleanDefaultScheme [] = [] from rfl]
  simp only [hss, hns]
  rw [if_neg hbrf, hbf3.1, hbf3.2]

theorem pathDefault_shape (pth : List Char)
    (hps : pth = [] ∨ ∃ w, pth = '/' :: w) :
    ∃ z, (if pth.isEmpty = true then ['/'] else pth) = '/' :: z ∧
      (∀ c ∈ z, c ∈ pth) := by
  rcases hps with rfl | ⟨w, rfl⟩
  · exact ⟨[], by simp, by simp⟩
  · exact ⟨w, by simp, fun c hc => by simp [hc]⟩

/-- The reassembled identity URL of parts with an unbracketed,
delimiter-free host is a fixed point of `normalize_identity_url`. -/
theorem normCore_render_fixed (np : IdParts)
    (hmem : np.scheme = httpL ∨ np.scheme = httpsL)
    (hhne : np.host ≠ [])
    (hh : ∀ c ∈ np.host, isNetlocEnd c = false ∧ c ≠ ':' ∧ c ≠ '@' ∧ c ≠ '[' ∧
      c ≠ ']' ∧ c ≠ '\t' ∧ c ≠ '\r' ∧ c ≠ '\n')
    (hlowh : np.host.map Char.toLower = np.host)
    (hport : ∀ n, np.port = some n → ¬ n = 0 ∧ n ≤ 65535)
    (hps : np.path = [] ∨ ∃ w, np.path = '/' :: w)
    (hpath : ∀ c ∈ np.path, c ≠ '#' ∧ c ≠ '?' ∧ c ≠ '\t' ∧ c ≠ '\r' ∧ c ≠ '\n')
    (hquery : ∀ c ∈ np.query, c ≠ '#' ∧ c ≠ '\t' ∧ c ≠ '\r' ∧ c ≠ '\n') :
    normCore (renderIdParts np) = some (renderIdParts np) := by
  have hAx : ∃ a t, np.scheme = a :: t ∧ a.isAlpha = true ∧ ¬ a.val ≤ 0x20 := by
    rcases hmem with h | h <;> rw [h]
    · exact ⟨'h', ['t', 't', 'p'], rfl, by decide, by decide⟩
    · exact ⟨'h', ['t', 't', 'p', 's'], rfl, by decide, by decide⟩
  have hSx : np.scheme.all isSchemeChar = true := by
    rcases hmem with h | h <;> rw [h] <;> decide
  have hscx : ∀ c ∈ np.scheme, c ≠ ':' ∧ c ≠ '\t' ∧ c ≠ '\r' ∧ c ≠ '\n' := by
    rcases hmem with h | h <;> rw [h] <;> decide
  have hlow : np.scheme.map Char.toLower = np.scheme := map_toLower_scheme np.scheme hmem
  have hsee : np.scheme.isEmpty = false := by
    rcases hmem with h | h <;> rw [h] <;> decide
  have hnee : np.host.isEmpty = false := by simpa [List.isEmpty_iff] using hhne
  obtain ⟨z, hz, hzsub⟩ := pathDefault_shape np.path hps
  have hzf : ∀ c ∈ '/' :: z, c ≠ '#' ∧ c ≠ '?' ∧ c ≠ '\t' ∧ c ≠ '\r' ∧ c ≠ '\n' := by
    intro c hc
    rcases List.mem_cons.mp hc with rfl | hc
    · exact ⟨by decide, by decide, by decide, by decide, by decide⟩
    · exact hpath c (hzsub c hc)
  have htail : ∀ c ∈ '/' :: (z ++ if np.query.isEmpty = true then [] else '?' :: np.query),
      c ≠ '#' ∧ c ≠ '\t' ∧ c ≠ '\r' ∧ c ≠ '\n' := by
    intro c hc
    rcases List.mem_cons.mp hc with rfl | hc
    · exact ⟨by decide, by decide, by decide, by decide⟩
    · rcases List.mem_append.mp hc with hc | hc
      · have h5 := hzf c (by simp [hc])
        exact ⟨h5.1, h5.2.2.1, h5.2.2.2.1, h5.2.2.2.2⟩
      · by_cases hq : np.query.isEmpty = true
        · rw [if_pos hq] at hc
          cases hc
        · rw [if_neg hq] at hc
          rcases List.mem_cons.mp hc with rfl | hc
          · exact ⟨by decide, by decide, by decide, by decide⟩
          · exact hquery c hc
  have hqsplit :
      beforeFirst '?' ('/' :: (z ++ if np.query.isEmpty = true then [] else '?' :: np.query))
        = '/' :: z ∧
      afterFirst '?' ('/' :: (z ++ if np.query.isEmpty = true then [] else '?' :: np.query))
        = np.query := by
    by_cases hq : np.query.isEmpty = true
    · rw [if_pos hq]
      have hqnil : np.query = [] := by simpa [List.isEmpty_iff] using hq
      rw [List.append_nil]
      have hb := beforeFirst_not_mem '?' ('/' :: z) (fun x hx => (hzf x hx).2.1)
      exact ⟨hb.1, hb.2.trans hqnil.symm⟩
    · rw [if_neg hq]
      have happ := beforeFirst_app '?' ('/' :: z) np.query (fun x hx => (hzf x hx).2.1)
      constructor
      · rw [← List.cons_append]
        exact happ.1
      · rw [← List.cons_append]
        exact happ.2
  rcases hpt : np.port with _ | n
  · -- no port: the netloc is the bare host
    have hrawh := rawHost_unbracketed_none np.host
      (fun c hc => ⟨(hh c hc).2.1, (hh c hc).2.2.1, (hh c hc).2.2.2.1⟩)
    have hnl : ∀ c ∈ np.host, isNetlocEnd c = false ∧ c ≠ '[' ∧ c ≠ ']' ∧
        c ≠ '\t' ∧ c ≠ '\r' ∧ c ≠ '\n' :=
      fun c hc => ⟨(hh c hc).1, (hh c hc).2.2.2.1, (hh c hc).2.2.2.2.1,
        (hh c hc).2.2.2.2.2.1, (hh c hc).2.2.2.2.2.2.1, (hh c hc).2.2.2.2.2.2.2⟩
    have hR : renderIdParts np = np.scheme ++ ':' :: '/' :: '/' :: (np.host ++
        ('/' :: (z ++ if np.query.isEmpty = true then [] else '?' :: np.query))) := by
      simp only [renderIdParts, hpt]
      rw [hlow, hz, urlunsplitM_eval np.scheme np.host ('/' :: z) np.query hnee hsee rfl]
      simp only [List.cons_append]
    have hsplit := urlsplitM_render np.scheme np.host
      (z ++ if np.query.isEmpty = true then [] else '?' :: np.query)
      hAx hSx hscx hlow hnl htail
    have hR2 : renderIdParts ⟨np.scheme, np.host, none, '/' :: z, np.query⟩ =
        renderIdParts np := by
      rw [hR]
      simp only [renderIdParts]
      rw [hlow, show (if ('/' :: z : List Char).isEmpty = true then ['/'] else '/' :: z)
          = '/' :: z from if_neg (by simp)]
      rw [urlunsplitM_eval np.scheme np.host ('/' :: z) np.query hnee hsee rfl]
      simp only [List.cons_append]
    rw [hR]
    simp only [normCore, idParts, hsplit]
    rw [if_pos hmem, hrawh.1, hlowh]
    rw [if_neg (by simp [hnee])]
    simp only [hrawh.2, hqsplit.1, hqsplit.2]
    rw [← hR, hR2]
    rw [if_pos (startsHttpOk_renderIdParts np hmem hhne)]
  · -- explicit port: the netloc is host ++ ':' ++ digits
    obtain ⟨hn0, hn65⟩ := hport n hpt
    have hrawh := rawHost_unbracketed_some np.host n
      (fun c hc => ⟨(hh c hc).2.1, (hh c hc).2.2.1, (hh c hc).2.2.2.1⟩)
    have hnl : ∀ c ∈ np.host ++ ':' :: natRepr n, isNetlocEnd c = false ∧ c ≠ '[' ∧
        c ≠ ']' ∧ c ≠ '\t' ∧ c ≠ '\r' ∧ c ≠ '\n' := by
      intro c hc
      rcases List.mem_append.mp hc with hc | hc
      · exact ⟨(hh c hc).1, (hh c hc).2.2.2.1, (hh c hc).2.2.2.2.1,
          (hh c hc).2.2.2.2.2.1, (hh c hc).2.2.2.2.2.2.1, (hh c hc).2.2.2.2.2.2.2⟩
      · rcases List.mem_cons.mp hc with rfl | hc
        · exact ⟨by decide, by decide, by decide, by decide, by decide, by decide⟩
        · have hd := digitChar_tame c (natRepr_all_digits n c hc)
          exact ⟨hd.1, hd.2.2.2.1, hd.2.2.2.2.1, hd.2.2.2.2.2.2.2.1,
            hd.2.2.2.2.2.2.2.2.1, hd.2.2.2.2.2.2.2.2.2⟩
    have hnle : (np.host ++ ':' :: natRepr n).isEmpty = false := by
      simp [List.isEmpty_iff]
    have hR : renderIdParts np = np.scheme ++ ':' :: '/' :: '/' ::
        ((np.host ++ ':' :: natRepr n) ++
        ('/' :: (z ++ if np.query.isEmpty = true then [] else '?' :: np.query))) := by
      simp only [renderIdParts, hpt]
      rw [hlow, hz, urlunsplitM_eval np.scheme (np.host ++ ':' :: natRepr n)
        ('/' :: z) np.query hnle hsee rfl]
      simp only [List.cons_append]
    have hsplit := urlsplitM_render np.scheme (np.host ++ ':' :: natRepr n)
      (z ++ if np.query.isEmpty = true then [] else '?' :: np.query)
      hAx hSx hscx hlow hnl htail
    have hR2 : renderIdParts ⟨np.scheme, np.host, some n, '/' :: z, np.query⟩ =
        renderIdParts np := by
      rw [hR]
      simp only [renderIdParts]
      rw [hlow, show (if ('/' :: z : List Char).isEmpty = true then ['/'] else '/' :: z)
          = '/' :: z from if_neg (by simp)]
      rw [urlunsplitM_eval np.scheme (np.host ++ ':' :: natRepr n)
        ('/' :: z) np.query hnle hsee rfl]
      simp only [List.cons_append]
    rw [hR]
    simp only [normCore, idParts, hsplit]
    rw [if_pos hmem, hrawh.1, hlowh]
    rw [if_neg (by simp [hnee])]
    simp only [hrawh.2, hqsplit.1, hqsplit.2]
    rw [if_pos ⟨by simpa [List.isEmpty_iff] using natRepr_ne_nil n,
      List.all_eq_true.mpr (natRepr_all_digits n)⟩]
    rw [digitsValue_natRepr]
    rw [if_pos hn65, if_neg hn0]
    rw [← hR]
    show (if startsHttpOk (renderIdParts ⟨np.scheme, np.host, some n, '/' :: z, np.query⟩) = true
        then some (renderIdParts ⟨np.scheme, np.host, some n, '/' :: z, np.query⟩) else none)
      = some (renderIdParts np)
    rw [hR2, if_pos (startsHttpOk_renderIdParts np hmem hhne)]

/-! ### Inverting a successful `urlsplit`: component character classes -/

theorem beforeFirst_mem (c x : Char) (s : List Char) (h : x ∈ beforeFirst c s) :
    x ≠ c ∧ x ∈ s :=
  ⟨by simpa using List.mem_takeWhile_imp h, (List.takeWhile_sublist _).subset h⟩

theorem afterFirst_mem (c x : Char) (s : List Char) (h : x ∈ afterFirst c s) :
    x ∈ s := by
  simp only [afterFirst] at h
  exact (List.dropWhile_sublist _).subset ((List.tail_sublist _).subset h)

theorem afterLast_mem (c x : Char) (s : List Char) (h : x ∈ afterLast c s) :
    x ∈ s := by
  simp only [afterLast, List.mem_reverse] at h
  exact List.mem_reverse.mp ((List.takeWhile_sublist _).subset h)

theorem rawHostOf_mem (netloc : List Char) (c : Char) (h : c ∈ rawHostOf netloc) :
    c ∈ netloc := by
  simp only [rawHostOf] at h
  split at h
  · exact afterLast_mem '@' c netloc
      (afterFirst_mem '[' c _ (beforeFirst_mem ']' c _ h).2)
  · exact afterLast_mem '@' c netloc (beforeFirst_mem ':' c _ h).2

theorem schemeSplit_snd_sublist (d s a b : List Char) (h : schemeSplit d s = (a, b)) :
    List.Sublist b s := by
  unfold schemeSplit at h
  split at h
  · split at h
    · injection h with h1 h2
      subst h2
      exact List.Sublist.refl s
    · split at h
      · injection h with h1 h2
        subst h2
        simp only [afterFirst]
        exact (List.tail_sublist _).trans (List.dropWhile_sublist _)
      · injection h with h1 h2
        subst h2
        exact List.Sublist.refl s
  · injection h with h1 h2
    subst h2
    exact List.Sublist.refl s

theorem netlocSplit_inv (s nl rest2 : List Char) (h : netlocSplit s = (nl, rest2)) :
    (∀ c ∈ nl, isNetlocEnd c = false ∧ c ∈ s) ∧
    List.Sublist rest2 s ∧
    (nl ≠ [] → rest2 = [] ∨ ∃ c w, rest2 = c :: w ∧ isNetlocEnd c = true) := by
  unfold netlocSplit at h
  split at h
  · rename_i rest
    injection h with h1 h2
    subst h1
    subst h2
    refine ⟨?_, ?_, ?_⟩
    · intro c hc
      have hm := List.mem_takeWhile_imp hc
      have hin : c ∈ rest := (List.takeWhile_sublist _).subset hc
      exact ⟨by simpa using hm, by simp [hin]⟩
    · exact (List.dropWhile_sublist _).trans (((List.Sublist.refl rest).cons '/').cons '/')
    · intro hne
      rcases hd : rest.dropWhile (fun c => ¬ isNetlocEnd c) with _ | ⟨c, w⟩
      · exact Or.inl rfl
      · exact Or.inr ⟨c, w, rfl, by simpa using dropWhile_head_false _ rest c w hd⟩
  · injection h with h1 h2
    subst h1
    subst h2
    exact ⟨by simp, List.Sublist.refl s, fun hne => absurd rfl hne⟩

theorem urlsplitM_ok_parts (dflt u : List Char) (p : SplitParts)
    (h : urlsplitM dflt u = .ok p) :
    (∀ c ∈ p.netloc, isNetlocEnd c = false ∧ c ≠ '\t' ∧ c ≠ '\r' ∧ c ≠ '\n') ∧
    (p.netloc ≠ [] → p.path = [] ∨ ∃ w, p.path = '/' :: w) ∧
    (∀ c ∈ p.path, c ≠ '#' ∧ c ≠ '?' ∧ c ≠ '\t' ∧ c ≠ '\r' ∧ c ≠ '\n') ∧
    (∀ c ∈ p.query, c ≠ '#' ∧ c ≠ '\t' ∧ c ≠ '\r' ∧ c ≠ '\n') := by
  simp only [urlsplitM] at h
  rcases hss : schemeSplit (cleanDefaultScheme dflt) (preprocess u) with ⟨sch, rest⟩
  simp only [hss] at h
  rcases hns : netlocSplit rest with ⟨nl, rest2⟩
  simp only [hns] at h
  split at h
  · cases h
  · injection h with h
    subst h
    have hrest : List.Sublist rest (preprocess u) := schemeSplit_snd_sublist _ _ _ _ hss
    obtain ⟨hnlm, hrest2, hshape⟩ := netlocSplit_inv rest nl rest2 hns
    refine ⟨?_, ?_, ?_, ?_⟩
    · intro c hc
      obtain ⟨h1, h2⟩ := hnlm c hc
      have h3 := preprocess_mem c u (hrest.subset h2)
      exact ⟨h1, h3.1, h3.2.1, h3.2.2⟩
    · intro hne
      rcases hshape hne with h0 | ⟨c, w, hrw, hcend⟩
      · left
        show beforeFirst '?' (beforeFirst '#' rest2) = []
        rw [h0]
        rfl
      · have hcc : (c = '/' ∨ c = '?') ∨ c = '#' := by
          simpa [isNetlocEnd] using hcend
        rcases hcc with (rfl | rfl) | rfl
        · right
          have e1 : beforeFirst '#' ('/' :: w) = '/' :: beforeFirst '#' w := by
            simp [beforeFirst, List.takeWhile_cons]
          have e2 : beforeFirst '?' ('/' :: beforeFirst '#' w) =
              '/' :: beforeFirst '?' (beforeFirst '#' w) := by
            simp [beforeFirst, List.takeWhile_cons]
          exact ⟨_, by rw [show (⟨sch, nl, beforeFirst '?' (beforeFirst '#' rest2),
            afterFirst '?' (beforeFirst '#' rest2), afterFirst '#' rest2⟩ :
            SplitParts).path = beforeFirst '?' (beforeFirst '#' rest2) from rfl,
            hrw, e1, e2]⟩
        · left
          have e1 : beforeFirst '#' ('?' :: w) = '?' :: beforeFirst '#' w := by
            simp [beforeFirst, List.takeWhile_cons]
          show beforeFirst '?' (beforeFirst '#' rest2) = []
          rw [hrw, e1]
          simp [beforeFirst, List.takeWhile_cons]
        · left
          show beforeFirst '?' (beforeFirst '#' rest2) = []
          rw [hrw]
          simp [beforeFirst, List.takeWhile_cons]
    · intro c hc
      have h1 := beforeFirst_mem '?' c _ hc
      have h2 := beforeFirst_mem '#' c _ h1.2
      have h3 := preprocess_mem c u (hrest.subset (hrest2.subset h2.2))
      exact ⟨h2.1, h1.1, h3.1, h3.2.1, h3.2.2⟩
    · intro c hc
      have h1 := afterFirst_mem '?' c _ hc
      have h2 := beforeFirst_mem '#' c _ h1
      have h3 := preprocess_mem c u (hrest.subset (hrest2.subset h2.2))
      exact ⟨h2.1, h3.1, h3.2.1, h3.2.2⟩

/-- What accepted identity parts look like: the host is a lowercased raw
host whose characters avoid the netloc terminators and unsafe bytes, a kept
port is a nonzero 16-bit number, and path and query inherit the character
classes the split gives them. -/
theorem idParts_inversion (u : List Char) (np : IdParts) (h : idParts u = some np) :
    (∃ hraw : List Char, np.host = hraw.map Char.toLower ∧
       ∀ c ∈ hraw, isNetlocEnd c = false ∧ c ≠ '\t' ∧ c ≠ '\r' ∧ c ≠ '\n') ∧
    (∀ n, np.port = some n → ¬ n = 0 ∧ n ≤ 65535) ∧
    (np.path = [] ∨ ∃ w, np.path = '/' :: w) ∧
    (∀ c ∈ np.path, c ≠ '#' ∧ c ≠ '?' ∧ c ≠ '\t' ∧ c ≠ '\r' ∧ c ≠ '\n') ∧
    (∀ c ∈ np.query, c ≠ '#' ∧ c ≠ '\t' ∧ c ≠ '\r' ∧ c ≠ '\n') := by
  simp only [idParts] at h
  rcases hsp : urlsplitM [] u with e | p
  · simp only [hsp] at h
    cases h
  · simp only [hsp] at h
    obtain ⟨hnetf, hshape, hpathf, hqueryf⟩ := urlsplitM_ok_parts [] u p hsp
    split at h
    · rename_i hsc
      split at h
      · cases h
      · rename_i hhe
        have hnlne : p.netloc ≠ [] := by
          intro he
          exact hhe (by rw [he]; rfl)
        have hhostraw : ∃ hraw : List Char, ((rawHostOf p.netloc).map Char.toLower : List Char)
            = hraw.map Char.toLower ∧
            ∀ c ∈ hraw, isNetlocEnd c = false ∧ c ≠ '\t' ∧ c ≠ '\r' ∧ c ≠ '\n' := by
          refine ⟨rawHostOf p.netloc, rfl, ?_⟩
          intro c hc
          exact hnetf c (rawHostOf_mem p.netloc c hc)
        rcases hpt : rawPortStrOf p.netloc with _ | ps
        · simp only [hpt] at h
          injection h with h
          subst h
          refine ⟨hhostraw, ?_, hshape hnlne, hpathf, hqueryf⟩
          intro n hn
          have hn' : (none : Option Nat) = some n := hn
          cases hn'
        · simp only [hpt] at h
          split at h
          · split at h
            · rename_i hd hr
              injection h with h
              subst h
              refine ⟨hhostraw, ?_, hshape hnlne, hpathf, hqueryf⟩
              intro n hn
              by_cases h0 : digitsValue ps = 0
              · rw [if_pos h0] at hn
                cases hn
              · rw [if_neg h0] at hn
                injection hn with hn
                subst hn
                exact ⟨h0, hr⟩
            · cases h
          · cases h
    · cases h

/-- The claim as frozen is false on the code (C10): a bracketed IPv6 host
is accepted, but the reassembly drops the brackets, so the output is not
itself accepted — `normalize('http://[::1]/e')` returns `'http://::1/e'`,
whose re-normalization returns `None`. -/
theorem normalize_identity_not_idempotent_counterexample :
    normalizeIdentityUrl "http://[::1]/e" = some "http://::1/e" ∧
    normalizeIdentityUrl "http://::1/e" = none := by
  exact ⟨by decide, by decide⟩

/-- The claim as amended (C10): on every accepted URL whose extracted host
contains no colon, at-sign or square bracket — that is, every URL except
those with a bracketed (IPv6 or IPvFuture) host — `normalize_identity_url`
is idempotent: the value it returns is a fixed point of normalization. -/
theorem normalize_identity_idempotent_unbracketed (u : String) (np : IdParts)
    (h1 : idParts u.toList = some np)
    (hh : ∀ c ∈ np.host, c ≠ ':' ∧ c ≠ '@' ∧ c ≠ '[' ∧ c ≠ ']') :
    normalizeIdentityUrl u = some (String.mk (renderIdParts np)) ∧
    normalizeIdentityUrl (String.mk (renderIdParts np)) =
      some (String.mk (renderIdParts np)) := by
  obtain ⟨hsch, hhne⟩ := idParts_some_startsOk u.toList np h1
  obtain ⟨⟨hraw, hmap, hrawf⟩, hport, hps, hpath, hquery⟩ := idParts_inversion u.toList np h1
  have hhostf : ∀ c ∈ np.host, isNetlocEnd c = false ∧ c ≠ ':' ∧ c ≠ '@' ∧ c ≠ '[' ∧
      c ≠ ']' ∧ c ≠ '\t' ∧ c ≠ '\r' ∧ c ≠ '\n' := by
    intro c hc
    obtain ⟨h4a, h4b, h4c, h4d⟩ := hh c hc
    rw [hmap] at hc
    obtain ⟨c0, hc0, rfl⟩ := List.mem_map.mp hc
    obtain ⟨he0, ht0, hr0, hn0⟩ := hrawf c0 hc0
    have he0' : (¬ c0 = '/' ∧ ¬ c0 = '?') ∧ ¬ c0 = '#' := by
      simpa [isNetlocEnd] using he0
    refine ⟨?_, h4a, h4b, h4c, h4d, ?_, ?_, ?_⟩
    · have n1 := toLower_ne_low c0 '/' (by decide) he0'.1.1
      have n2 := toLower_ne_low c0 '?' (by decide) he0'.1.2
      have n3 := toLower_ne_low c0 '#' (by decide) he0'.2
      simp [isNetlocEnd, n1, n2, n3]
    · exact toLower_ne_low c0 '\t' (by decide) ht0
    · exact toLower_ne_low c0 '\r' (by decide) hr0
    · exact toLower_ne_low c0 '\n' (by decide) hn0
  have hlowh : np.host.map Char.toLower = np.host := by
    rw [hmap]
    exact map_toLower_idem hraw
  have hfix := normCore_render_fixed np hsch hhne hhostf hlowh hport hps hpath hquery
  constructor
  · simp only [normalizeIdentityUrl, normCore, h1]
    rw [if_pos (startsHttpOk_renderIdParts np hsch hhne)]
    rfl
  · simp only [normalizeIdentityUrl]
    rw [show (String.mk (renderIdParts np)).toList = renderIdParts np from rfl, hfix]
    rfl

/-- Closed instance of C10 (amended): a mixed-case host with an explicit
nondefault port normalizes to a fixed point of normalization. -/
theorem normalize_identity_idempotent_witness :
    normalizeIdentityUrl "https://Example.com:8080/a?b=1" =
      some "https://example.com:8080/a?b=1" ∧
    normalizeIdentityUrl "https://example.com:8080/a?b=1" =
      some "https://example.com:8080/a?b=1" := by
  have h := normalize_identity_idempotent_unbracketed "https://Example.com:8080/a?b=1"
    ⟨['h', 't', 't', 'p', 's'], ['e', 'x', 'a', 'm', 'p', 'l', 'e', '.', 'c', 'o', 'm'],
      some 8080, ['/', 'a'], ['b', '=', '1']⟩ (by decide) (by decide)
  have he : String.mk (renderIdParts ⟨['h', 't', 't', 'p', 's'],
      ['e', 'x', 'a', 'm', 'p', 'l', 'e', '.', 'c', 'o', 'm'],
      some 8080, ['/', 'a'], ['b', '=', '1']⟩) = "https://example.com:8080/a?b=1" := by
    decide
  exact ⟨he ▸ h.1, he ▸ h.2⟩

/-! ## Occurrence ordinals, identity keys and DOM paths (C2) -/

theorem afterLast_app (c : Char) (a t : List Char) (ht : ∀ x ∈ t, x ≠ c) :
    afterLast c (a ++ c :: t) = t := by
  simp only [afterLast, List.reverse_append, List.reverse_cons]
  have hr : (t.reverse ++ [c]) ++ a.reverse = t.reverse ++ c :: a.reverse := by
    simp
  rw [hr, (takeWhile_dropWhile_app (fun x => x ≠ c) t.reverse c a.reverse
    (fun x hx => by simpa using ht x (List.mem_reverse.mp hx)) (by simp)).1,
    List.reverse_reverse]

/-- The last pipe-separated field of the key material is the decimal
occurrence ordinal, so materials with different ordinals differ no matter
what the other fields hold. -/
theorem keyMaterial_data (s p a d t : String) (o : Nat) :
    (keyMaterial s p a d t o).data =
      (s.data ++ '|' :: p.data ++ '|' :: a.data ++ '|' :: d.data ++ '|' :: t.data) ++
        '|' :: natRepr o := by
  have h1 : keyMaterial s p a d t o =
      ((((s ++ "|" ++ p) ++ "|" ++ a) ++ "|" ++ d) ++ "|" ++ t) ++ "|" ++
        String.mk (natRepr o) := rfl
  rw [h1]
  simp [String.data_append]

theorem keyMaterial_occ_inj (s p a d t s' p' a' d' t' : String) (o o' : Nat)
    (h : keyMaterial s p a d t o = keyMaterial s' p' a' d' t' o') : o = o' := by
  have hd := congrArg String.data h
  rw [keyMaterial_data, keyMaterial_data] at hd
  have hdig : ∀ m : Nat, ∀ x ∈ natRepr m, x ≠ '|' := by
    intro m x hx
    have := natRepr_all_digits m x hx
    intro he
    rw [he] at this
    cases this
  have h1 := afterLast_app '|'
    (s.data ++ '|' :: p.data ++ '|' :: a.data ++ '|' :: d.data ++ '|' :: t.data)
    (natRepr o) (hdig o)
  have h2 := afterLast_app '|'
    (s'.data ++ '|' :: p'.data ++ '|' :: a'.data ++ '|' :: d'.data ++ '|' :: t'.data)
    (natRepr o') (hdig o')
  have : natRepr o = natRepr o' := by rw [← h1, ← h2, hd]
  have := congrArg digitsValue this
  rwa [digitsValue_natRepr, digitsValue_natRepr] at this

theorem segFor_inj (n1 n2 : String) (r1 r2 : Nat)
    (h1 : goodName n1 = true) (h2 : goodName n2 = true)
    (he : segFor n1 r1 = segFor n2 r2) : n1 = n2 ∧ r1 = r2 := by
  have hg1 : ∀ x ∈ n1.toList, x ≠ '[' := by
    intro x hx
    have := List.all_eq_true.mp h1 x hx
    simp at this
    exact this.1.1
  have hg2 : ∀ x ∈ n2.toList, x ≠ '[' := by
    intro x hx
    have := List.all_eq_true.mp h2 x hx
    simp at this
    exact this.1.1
  have hb1 := beforeFirst_app '[' n1.toList (natRepr r1 ++ [']']) hg1
  have hb2 := beforeFirst_app '[' n2.toList (natRepr r2 ++ [']']) hg2
  simp only [segFor] at he
  have hnames : n1.toList = n2.toList := by
    rw [← hb1.1, ← hb2.1, he]
  have hn12 : n1 = n2 := String.ext hnames
  have htails : natRepr r1 ++ [']'] = natRepr r2 ++ [']'] := by
    rw [← hb1.2, ← hb2.2, he]
  have hreprs : natRepr r1 = natRepr r2 := by
    have hlen : (natRepr r1).length = (natRepr r2).length := by
      have := congrArg List.length htails
      simpa using this
    exact (List.append_inj htails hlen).1
  have := congrArg digitsValue hreprs
  rw [digitsValue_natRepr, digitsValue_natRepr] at this
  exact ⟨hn12, this⟩

theorem intercalate_slash_cons₂ (x y : List Char) (zs : List (List Char)) :
    List.intercalate ['/'] (x :: y :: zs) =
      x ++ '/' :: List.intercalate ['/'] (y :: zs) := by
  simp [List.intercalate]

theorem intercalate_slash_single (x : List Char) : List.intercalate ['/'] [x] = x := by
  simp [List.intercalate]

theorem intercalate_slash_inj :
    ∀ (l1 l2 : List (List Char)),
      (∀ x ∈ l1, x ≠ [] ∧ ∀ c ∈ x, c ≠ '/') →
      (∀ x ∈ l2, x ≠ [] ∧ ∀ c ∈ x, c ≠ '/') →
      List.intercalate ['/'] l1 = List.intercalate ['/'] l2 → l1 = l2
  | [], [], _, _, _ => rfl
  | [], y :: ys, _, h2, he => by
    exfalso
    cases ys with
    | nil =>
      rw [intercalate_slash_single] at he
      exact (h2 y (by simp)).1 he.symm
    | cons y2 ys2 =>
      rw [intercalate_slash_cons₂] at he
      have : y ++ '/' :: List.intercalate ['/'] (y2 :: ys2) ≠ [] := by simp
      exact this he.symm
  | x :: xs, [], h1, _, he => by
    exfalso
    cases xs with
    | nil =>
      rw [intercalate_slash_single] at he
      exact (h1 x (by simp)).1 he
    | cons x2 xs2 =>
      rw [intercalate_slash_cons₂] at he
      have : x ++ '/' :: List.intercalate ['/'] (x2 :: xs2) ≠ [] := by simp
      exact this he
  | [x], [y], h1, h2, he => by
    rw [intercalate_slash_single, intercalate_slash_single] at he
    rw [he]
  | [x], y :: y2 :: ys, h1, h2, he => by
    exfalso
    rw [intercalate_slash_single, intercalate_slash_cons₂] at he
    have hmem : '/' ∈ x := by
      rw [he]
      simp
    exact (h1 x (by simp)).2 '/' hmem rfl
  | x :: x2 :: xs, [y], h1, h2, he => by
    exfalso
    rw [intercalate_slash_single, intercalate_slash_cons₂] at he
    have hmem : '/' ∈ y := by
      rw [← he]
      simp
    exact (h2 y (by simp)).2 '/' hmem rfl
  | x :: x2 :: xs, y :: y2 :: ys, h1, h2, he => by
    rw [intercalate_slash_cons₂, intercalate_slash_cons₂] at he
    have hbx := beforeFirst_app '/' x (List.intercalate ['/'] (x2 :: xs))
      (fun c hc => (h1 x (by simp)).2 c hc)
    have hby := beforeFirst_app '/' y (List.intercalate ['/'] (y2 :: ys))
      (fun c hc => (h2 y (by simp)).2 c hc)
    have hxy : x = y := by rw [← hbx.1, ← hby.1, he]
    have htl : List.intercalate ['/'] (x2 :: xs) = List.intercalate ['/'] (y2 :: ys) := by
      rw [← hbx.2, ← hby.2, he]
    have hrec := intercalate_slash_inj (x2 :: xs) (y2 :: ys)
      (fun z hz => h1 z (by simp [hz])) (fun z hz => h2 z (by simp [hz])) htl
    rw [hxy, hrec]

theorem segFor_ne_nil (nm : String) (r : Nat) : segFor nm r ≠ [] := by
  simp [segFor]

theorem segFor_no_slash (nm : String) (r : Nat) (hg : goodName nm = true) :
    ∀ c ∈ segFor nm r, c ≠ '/' := by
  intro c hc
  simp only [segFor, List.mem_append, List.mem_cons] at hc
  rcases hc with hc | rfl | hc | rfl | hc
  · have hx := List.all_eq_true.mp hg c hc
    simp only [Bool.and_eq_true, decide_eq_true_eq] at hx
    exact hx.2
  · decide
  · have h1 := (digitChar_tame c (natRepr_all_digits r c hc)).1
    intro he
    rw [he] at h1
    exact absurd h1 (by decide)
  · decide
  · simp at hc

theorem renderDomPath_inj (s1 s2 : List (List Char))
    (h1 : ∀ x ∈ s1, x ≠ [] ∧ ∀ c ∈ x, c ≠ '/')
    (h2 : ∀ x ∈ s2, x ≠ [] ∧ ∀ c ∈ x, c ≠ '/')
    (he : renderDomPath s1 = renderDomPath s2) : s1 = s2 := by
  simp only [renderDomPath, List.cons.injEq, true_and] at he
  have hdoc : (segFor "[document]" 1 : List Char) ≠ [] ∧
      ∀ c ∈ (segFor "[document]" 1 : List Char), c ≠ '/' := by
    constructor
    · decide
    · decide
  have := intercalate_slash_inj (segFor "[document]" 1 :: s1) (segFor "[document]" 1 :: s2)
    (fun x hx => by
      rcases List.mem_cons.mp hx with rfl | hx
      · exact hdoc
      · exact h1 x hx)
    (fun x hx => by
      rcases List.mem_cons.mp hx with rfl | hx
      · exact hdoc
      · exact h2 x hx) he
  simpa using this

/-- Every enumerated node's segment list extends the inherited prefix by a
segment for a good name whose rank exceeds the inherited per-name count. -/
theorem enumForestAux_facts :
    ∀ (ts : List HTree) (pos : List Nat) (segs : List (List Char)) (i : Nat)
      (cnt : String → Nat), goodForest ts = true →
      ∀ e ∈ enumForestAux pos segs i cnt ts,
        ∃ nm r tail, e.2.1 = segs ++ segFor nm r :: tail ∧ cnt nm + 1 ≤ r ∧
          goodName nm = true
  | [], pos, segs, i, cnt, _, e, he => by simp [enumForestAux] at he
  | .node nm attrs cs :: rest, pos, segs, i, cnt, hg, e, he => by
    obtain ⟨hgt, hgr⟩ : goodTree (.node nm attrs cs) = true ∧ goodForest rest = true := by
      simpa [goodForest] using hg
    obtain ⟨hgn, hgc⟩ : goodName nm = true ∧ goodForest cs = true := by
      simpa [goodTree] using hgt
    simp only [enumForestAux, HTree.name] at he
    rcases List.mem_cons.mp he with rfl | he2
    · exact ⟨nm, cnt nm + 1, [], by simp, le_refl _, hgn⟩
    · rcases List.mem_append.mp he2 with he3 | he3
      · have hrec := enumForestAux_facts cs (pos ++ [i])
          (segs ++ [segFor nm (cnt nm + 1)]) 0 (fun _ => 0) hgc e
          (by simpa [enumTreeM] using he3)
        obtain ⟨nm2, r2, tail2, hsg, _, _⟩ := hrec
        exact ⟨nm, cnt nm + 1, segFor nm2 r2 :: tail2, by rw [hsg]; simp, le_refl _, hgn⟩
      · have hrec := enumForestAux_facts rest pos segs (i + 1)
          (fun s => if s = nm then cnt nm + 1 else cnt s) hgr e he3
        obtain ⟨nm2, r2, tail2, hsg, hle, hgn2⟩ := hrec
        refine ⟨nm2, r2, tail2, hsg, ?_, hgn2⟩
        by_cases hx : nm2 = nm
        · subst hx
          simp at hle
          omega
        · simpa [if_neg hx] using hle

/-- Every segment on an enumerated node's path is nonempty and free of the
slash used to join segments. -/
theorem enumForestAux_seg_elems :
    ∀ (ts : List HTree) (pos : List Nat) (segs : List (List Char)) (i : Nat)
      (cnt : String → Nat), goodForest ts = true →
      (∀ x ∈ segs, x ≠ [] ∧ ∀ c ∈ x, c ≠ '/') →
      ∀ e ∈ enumForestAux pos segs i cnt ts, ∀ x ∈ e.2.1, x ≠ [] ∧ ∀ c ∈ x, c ≠ '/'
  | [], pos, segs, i, cnt, _, _, e, he => by simp [enumForestAux] at he
  | .node nm attrs cs :: rest, pos, segs, i, cnt, hg, hs, e, he => by
    obtain ⟨hgt, hgr⟩ : goodTree (.node nm attrs cs) = true ∧ goodForest rest = true := by
      simpa [goodForest] using hg
    obtain ⟨hgn, hgc⟩ : goodName nm = true ∧ goodForest cs = true := by
      simpa [goodTree] using hgt
    have hs2 : ∀ x ∈ segs ++ [segFor nm (cnt nm + 1)], x ≠ [] ∧ ∀ c ∈ x, c ≠ '/' := by
      intro x hx
      rcases List.mem_append.mp hx with hx | hx
      · exact hs x hx
      · have : x = segFor nm (cnt nm + 1) := by simpa using hx
        subst this
        exact ⟨segFor_ne_nil nm _, segFor_no_slash nm _ hgn⟩
    simp only [enumForestAux, HTree.name] at he
    rcases List.mem_cons.mp he with rfl | he2
    · exact hs2
    · rcases List.mem_append.mp he2 with he3 | he3
      · exact enumForestAux_seg_elems cs (pos ++ [i]) (segs ++ [segFor nm (cnt nm + 1)])
          0 (fun _ => 0) hgc hs2 e (by simpa [enumTreeM] using he3)
      · exact enumForestAux_seg_elems rest pos segs (i + 1)
          (fun s => if s = nm then cnt nm + 1 else cnt s) hgr hs e he3

/-- Distinct tree positions render distinct segment lists: the enumeration
is injective from positions to DOM paths. -/
theorem enumForestAux_inj :
    ∀ (ts : List HTree) (pos : List Nat) (segs : List (List Char)) (i : Nat)
      (cnt : String → Nat), goodForest ts = true →
      ∀ e1 ∈ enumForestAux pos segs i cnt ts, ∀ e2 ∈ enumForestAux pos segs i cnt ts,
        e1.2.1 = e2.2.1 → e1.1 = e2.1
  | [], pos, segs, i, cnt, _, e1, he1, e2, he2, heq => by simp [enumForestAux] at he1
  | .node nm attrs cs :: rest, pos, segs, i, cnt, hg, e1, he1, e2, he2, heq => by
    obtain ⟨hgt, hgr⟩ : goodTree (.node nm attrs cs) = true ∧ goodForest rest = true := by
      simpa [goodForest] using hg
    obtain ⟨hgn, hgc⟩ : goodName nm = true ∧ goodForest cs = true := by
      simpa [goodTree] using hgt
    have hBneq : ∀ e' ∈ enumForestAux pos segs (i + 1)
        (fun s => if s = nm then cnt nm + 1 else cnt s) rest,
        ∀ X : List (List Char), segs ++ segFor nm (cnt nm + 1) :: X ≠ e'.2.1 := by
      intro e' he' X heq'
      obtain ⟨n2, r2, tail2, hsg2, hle2, hgn2⟩ := enumForestAux_facts rest pos segs (i + 1)
        (fun s => if s = nm then cnt nm + 1 else cnt s) hgr e' he'
      rw [hsg2] at heq'
      have hcons := List.append_cancel_left heq'
      injection hcons with hhead _
      obtain ⟨hn, hr⟩ := segFor_inj nm n2 (cnt nm + 1) r2 hgn hgn2 hhead
      subst hn
      simp at hle2
      omega
    have hAne : ∀ e' ∈ enumTreeM (pos ++ [i]) (segs ++ [segFor nm (cnt nm + 1)])
        (.node nm attrs cs), segs ++ [segFor nm (cnt nm + 1)] ≠ e'.2.1 := by
      intro e' he' heq'
      obtain ⟨n2, r2, tail2, hsg2, _, _⟩ := enumForestAux_facts cs (pos ++ [i])
        (segs ++ [segFor nm (cnt nm + 1)]) 0 (fun _ => 0) hgc e'
        (by simpa [enumTreeM] using he')
      rw [hsg2] at heq'
      have hlen := congrArg List.length heq'
      simp [List.length_append] at hlen
    simp only [enumForestAux, HTree.name] at he1 he2
    rcases List.mem_cons.mp he1 with rfl | he1' <;>
      rcases List.mem_cons.mp he2 with heq2 | he2'
    · rw [heq2]
    · rcases List.mem_append.mp he2' with he3 | he3
      · exact absurd heq (hAne e2 he3)
      · exact absurd heq (by simpa using hBneq e2 he3 [])
    · subst heq2
      rcases List.mem_append.mp he1' with he3 | he3
      · exact absurd heq.symm (hAne e1 he3)
      · exact absurd heq.symm (by simpa using hBneq e1 he3 [])
    · rcases List.mem_append.mp he1' with he3 | he4 <;>
        rcases List.mem_append.mp he2' with he5 | he6
      · exact enumForestAux_inj cs (pos ++ [i]) (segs ++ [segFor nm (cnt nm + 1)]) 0
          (fun _ => 0) hgc e1 (by simpa [enumTreeM] using he3) e2
          (by simpa [enumTreeM] using he5) heq
      · obtain ⟨n2, r2, tail2, hsg2, _, _⟩ := enumForestAux_facts cs (pos ++ [i])
          (segs ++ [segFor nm (cnt nm + 1)]) 0 (fun _ => 0) hgc e1
          (by simpa [enumTreeM] using he3)
        have hx : segs ++ segFor nm (cnt nm + 1) :: (segFor n2 r2 :: tail2) = e2.2.1 := by
          rw [← heq, hsg2]
          simp
        exact absurd hx (hBneq e2 he6 _)
      · obtain ⟨n2, r2, tail2, hsg2, _, _⟩ := enumForestAux_facts cs (pos ++ [i])
          (segs ++ [segFor nm (cnt nm + 1)]) 0 (fun _ => 0) hgc e2
          (by simpa [enumTreeM] using he5)
        have hx : segs ++ segFor nm (cnt nm + 1) :: (segFor n2 r2 :: tail2) = e1.2.1 := by
          rw [heq, hsg2]
          simp
        exact absurd hx (hBneq e1 he4 _)
      · exact enumForestAux_inj rest pos segs (i + 1)
          (fun s => if s = nm then cnt nm + 1 else cnt s) hgr e1 he4 e2 he6 heq

/-- Every extraction event is built from one enumerated node: its position
is the node's tree position and its DOM path the rendered segment list. -/
theorem pageEvents_mem (children : List HTree) (ev : ExtractEvent)
    (h : ev ∈ pageEvents children) :
    ∃ e ∈ enumPage children, ev.pos = e.1 ∧ ev.domPath = renderDomPath e.2.1 := by
  simp only [pageEvents, List.mem_flatMap] at h
  obtain ⟨e, he, hin⟩ := h
  refine ⟨e, he, ?_⟩
  split at hin
  · simp at hin
  · rw [List.mem_flatMap] at hin
    obtain ⟨attrName, _, hin2⟩ := hin
    split at hin2
    · simp at hin2
    · rw [List.mem_map] at hin2
      obtain ⟨cand, _, heq⟩ := hin2
      subst heq
      exact ⟨rfl, rfl⟩

/-- The per-(attribute, URL) ordinals emitted by the counting loop continue
the inherited counter value consecutively. -/
theorem processEvents_ordinals :
    ∀ (evs : List ExtractEvent) (S P : String) (sel : Option (List ResourceType))
      (incP excP : Option (String → Bool)) (counter : String × String → Nat)
      (rows : List AssetInstance),
      processEvents S P sel incP excP counter evs = .ok rows →
      ∀ a u : String,
        ((rows.filter (fun r => decide (r.asset_attr = a ∧ r.asset_url = u))).map
            (fun r => r.attr_occurrence)) =
          List.range' (counter (a, u) + 1)
            ((rows.filter (fun r => decide (r.asset_attr = a ∧ r.asset_url = u))).length) := by
  intro evs
  induction evs with
  | nil =>
    intro S P sel incP excP counter rows h a u
    simp only [processEvents] at h
    injection h with h
    subst h
    simp
  | cons ev rest ih =>
    intro S P sel incP excP counter rows h a u
    simp only [processEvents] at h
    split at h
    · cases h
    · exact ih S P sel incP excP counter rows h a u
    · rename_i ns rt hsv
      split at h
      · cases h
      · rename_i insts hrec0
        injection h with h
        subst h
        have hrec := ih S P sel incP excP
          (fun k => if k = (ev.attrName, ns) then counter (ev.attrName, ns) + 1 else counter k)
          insts hrec0 a u
        by_cases hk : ev.attrName = a ∧ ns = u
        · obtain ⟨rfl, rfl⟩ := hk
          rw [List.filter_cons_of_pos (by simp)]
          simp only [List.map_cons, List.length_cons]
          simp only [if_pos rfl] at hrec
          rw [hrec, List.range'_succ]
          simp
        · rw [List.filter_cons_of_neg (by simpa using fun h1 h2 => hk ⟨h1, h2⟩)]
          have hne : ¬ ((a, u) = (ev.attrName, ns)) := by
            intro hp
            injection hp with hp1 hp2
            exact hk ⟨hp1.symm, hp2.symm⟩
          simp only [if_neg hne] at hrec
          exact hrec

/-- Every emitted record carries the site and page URLs of the call and an
identity key recomputable from its own fields. -/
theorem processEvents_key_shape :
    ∀ (evs : List ExtractEvent) (S P : String) (sel : Option (List ResourceType))
      (incP excP : Option (String → Bool)) (counter : String × String → Nat)
      (rows : List AssetInstance),
      processEvents S P sel incP excP counter evs = .ok rows →
      ∀ r ∈ rows, r.site_url = S ∧ r.page_url = P ∧
        r.instance_key =
          makeInstanceKey S P r.asset_url r.dom_path r.asset_attr r.attr_occurrence := by
  intro evs
  induction evs with
  | nil =>
    intro S P sel incP excP counter rows h r hr
    simp only [processEvents] at h
    injection h with h
    subst h
    simp at hr
  | cons ev rest ih =>
    intro S P sel incP excP counter rows h r hr
    simp only [processEvents] at h
    split at h
    · cases h
    · exact ih S P sel incP excP counter rows h r hr
    · rename_i ns rt hsv
      split at h
      · cases h
      · rename_i insts hrec0
        injection h with h
        subst h
        rcases List.mem_cons.mp hr with rfl | hr2
        · exact ⟨rfl, rfl, rfl⟩
        · exact ih S P sel incP excP _ insts hrec0 r hr2

/-- C2: on every successfully extracted page, the occurrence ordinals of
the records sharing one (attribute, normalized URL) pair are exactly
1, 2, … in emission order; when exactly two records share the pair, their
ordinals are 1 and 2 and their key materials differ (so equal identity
keys would exhibit a SHA-256 collision on distinct strings); and, for
parser-shaped tag names, events at different DOM positions always render
different DOM paths. -/
theorem extract_two_references_ordinals_keys_dompaths
    (siteUrl pageUrl : String) (children : List HTree)
    (selected : Option (List ResourceType)) (includeP excludeP : Option (String → Bool))
    (rows : List AssetInstance)
    (h : extractAssetInstances siteUrl pageUrl children selected includeP excludeP = .ok rows)
    (hg : goodForest children = true) :
    (∀ a u : String,
      ((rows.filter (fun r => decide (r.asset_attr = a ∧ r.asset_url = u))).map
          (fun r => r.attr_occurrence)) =
        List.range' 1
          ((rows.filter (fun r => decide (r.asset_attr = a ∧ r.asset_url = u))).length)) ∧
    (∀ a u : String, ∀ r1 r2 : AssetInstance,
      rows.filter (fun r => decide (r.asset_attr = a ∧ r.asset_url = u)) = [r1, r2] →
      r1.attr_occurrence = 1 ∧ r2.attr_occurrence = 2 ∧
        (r1.instance_key = r2.instance_key →
          ∃ m1 m2 : String, m1 ≠ m2 ∧
            sha256Hex (utf8Bytes m1) = sha256Hex (utf8Bytes m2))) ∧
    (∀ ev1 ∈ pageEvents children, ∀ ev2 ∈ pageEvents children,
      ev1.pos ≠ ev2.pos → ev1.domPath ≠ ev2.domPath) := by
  have hord := processEvents_ordinals (pageEvents children) siteUrl pageUrl selected
    includeP excludeP (fun _ => 0) rows h
  have hkey := processEvents_key_shape (pageEvents children) siteUrl pageUrl selected
    includeP excludeP (fun _ => 0) rows h
  refine ⟨fun a u => hord a u, ?_, ?_⟩
  · intro a u r1 r2 hfil
    have h1 := hord a u
    rw [hfil] at h1
    have h1' : [r1.attr_occurrence, r2.attr_occurrence] = [1, 2] := by
      simpa [List.range'] using h1
    obtain ⟨ho1, ho2⟩ : r1.attr_occurrence = 1 ∧ r2.attr_occurrence = 2 := by
      injection h1' with ha hb
      injection hb with hb _
      exact ⟨ha, hb⟩
    have hm1 := List.mem_filter.mp (show r1 ∈ rows.filter
      (fun r => decide (r.asset_attr = a ∧ r.asset_url = u)) by rw [hfil]; simp)
    have hm2 := List.mem_filter.mp (show r2 ∈ rows.filter
      (fun r => decide (r.asset_attr = a ∧ r.asset_url = u)) by rw [hfil]; simp)
    obtain ⟨ha1, hu1⟩ : r1.asset_attr = a ∧ r1.asset_url = u := by simpa using hm1.2
    obtain ⟨ha2, hu2⟩ : r2.asset_attr = a ∧ r2.asset_url = u := by simpa using hm2.2
    obtain ⟨-, -, hk1⟩ := hkey r1 hm1.1
    obtain ⟨-, -, hk2⟩ := hkey r2 hm2.1
    rw [ha1, hu1, ho1] at hk1
    rw [ha2, hu2, ho2] at hk2
    refine ⟨ho1, ho2, ?_⟩
    intro hkeq
    refine ⟨keyMaterial siteUrl pageUrl u r1.dom_path a 1,
      keyMaterial siteUrl pageUrl u r2.dom_path a 2, ?_, ?_⟩
    · intro hmeq
      have h12 := keyMaterial_occ_inj siteUrl pageUrl u r1.dom_path a
        siteUrl pageUrl u r2.dom_path a 1 2 hmeq
      omega
    · have e1 : sha256Hex (utf8Bytes (keyMaterial siteUrl pageUrl u r1.dom_path a 1)) =
          r1.instance_key := by rw [hk1]; rfl
      have e2 : sha256Hex (utf8Bytes (keyMaterial siteUrl pageUrl u r2.dom_path a 2)) =
          r2.instance_key := by rw [hk2]; rfl
      rw [e1, e2]
      exact hkeq
  · intro ev1 h1 ev2 h2 hne hdp
    obtain ⟨e1, he1, hp1, hd1⟩ := pageEvents_mem children ev1 h1
    obtain ⟨e2, he2, hp2, hd2⟩ := pageEvents_mem children ev2 h2
    apply hne
    rw [hp1, hp2]
    apply enumForestAux_inj children [] [] 0 (fun _ => 0) hg e1 he1 e2 he2
    apply renderDomPath_inj
    · exact enumForestAux_seg_elems children [] [] 0 (fun _ => 0) hg (by simp) e1 he1
    · exact enumForestAux_seg_elems children [] [] 0 (fun _ => 0) hg (by simp) e2 he2
    · rw [← hd1, ← hd2]
      exact hdp

/-- Closed instance of C2: two identical `script src="/x.js"` references on
one page extract as exactly two records with ordinals 1 and 2, and their
DOM paths (hence key materials, hence — absent a SHA-256 collision —
identity keys) differ. -/
theorem extract_two_references_witness :
    extractAssetInstances "http://ex.com" "http://ex.com/" c2page none none none =
      .ok [c2row1, c2row2] ∧
    c2row1.attr_occurrence = 1 ∧ c2row2.attr_occurrence = 2 ∧
    (c2row1.instance_key = c2row2.instance_key →
      ∃ m1 m2 : String, m1 ≠ m2 ∧ sha256Hex (utf8Bytes m1) = sha256Hex (utf8Bytes m2)) := by
  have hx : extractAssetInstances "http://ex.com" "http://ex.com/" c2page none none none =
      .ok [c2row1, c2row2] := by rfl
  have h := extract_two_references_ordinals_keys_dompaths "http://ex.com" "http://ex.com/"
    c2page none none none [c2row1, c2row2] hx (by decide)
  have h2 := h.2.1 "src" "http://ex.com/x.js" c2row1 c2row2 (by decide)
  exact ⟨hx, h2.1, h2.2.1, h2.2.2⟩

end ResScan
